import Mathlib

/-!
Verification of the `sort_css` tool (`src/sort_css/sort_css.py`) against its
natural-language specification.

The Python source is shallowly embedded below.  Python strings are modelled as
Lean `String` values, but every string operation the source uses
(`str.split(",")`, `re.split(";", s)`, `re.split(" |:", s)`, `str.strip()`,
`str.replace("\n", "")`, `str.startswith((".", "#"))`, `sorted(...)`) is
re-implemented here on the underlying character list, so that all definitions
reduce inside the kernel.  All splits in the source are single-character-class
splits, so `splitChars` covers them exactly (empty pieces are kept, as in
Python).  `str.strip()` strips ASCII whitespace (space, tab, newline, carriage
return); the extra Python whitespace code points `\x0b`/`\x0c` are not
modelled.  Python's `sorted` on a list of strings is a stable sort by the
code-point lexicographic order; since equal strings are identical, its output
is the unique sorted permutation, which `List.insertionSort` also computes.

Python `dict`s are modelled as insertion-ordered association lists
(`List (String × _)`): key update preserves the key's position, new keys are
appended at the end, which is exactly CPython's ordered-`dict` behaviour.
-/

/-! ## Character-list string primitives (Python `str` operations) -/

/-- Splits a character list at every character satisfying `p`, keeping empty
pieces, exactly like Python `re.split` with a single-character class. -/
def splitChars (p : Char → Bool) : List Char → List (List Char)
  | [] => [[]]
  | c :: cs =>
    if p c then [] :: splitChars p cs
    else
      match splitChars p cs with
      | [] => [[c]]
      | piece :: rest => (c :: piece) :: rest

/-- ASCII whitespace, as stripped by Python `str.strip()` on CSS text. -/
def isSpace (c : Char) : Bool := c == ' ' || c == '\t' || c == '\n' || c == '\r'

/-- Python `str.strip()`. -/
def trimStr (s : String) : String :=
  ⟨((s.data.dropWhile isSpace).reverse.dropWhile isSpace).reverse⟩

/-- Python `str.split(sep)` / `re.split(sep, s)` for a one-character separator. -/
def splitOnChar (sep : Char) (s : String) : List String :=
  (splitChars (fun c => c == sep) s.data).map (fun l => ⟨l⟩)

/-- Code-point lexicographic order on character lists: Python string `<=`. -/
def charListLe : List Char → List Char → Bool
  | [], _ => true
  | _ :: _, [] => false
  | a :: as, b :: bs =>
    if a.toNat < b.toNat then true
    else if b.toNat < a.toNat then false
    else charListLe as bs

/-- Python string comparison, as a proposition for `List.insertionSort`. -/
def strLe (a b : String) : Prop := charListLe a.data b.data = true

instance : DecidableRel strLe := fun a b => by unfold strLe; infer_instance

/-- Python `str.startswith((".", "#"))`. -/
def startsDotHash (s : String) : Bool :=
  match s.data with
  | [] => false
  | c :: _ => c == '.' || c == '#'

/-- Python `tuple(dict.fromkeys(l))`: keep the first occurrence of each
element, drop later repeats. -/
def dedupKeepFirst (l : List String) : List String :=
  l.foldl (fun acc x => if x ∈ acc then acc else acc ++ [x]) []

/-- Specification-side formulation of first-occurrence de-duplication: keep
the head, drop its later repeats, recurse. -/
def firstDedup : List String → List String
  | [] => []
  | x :: xs => x :: firstDedup (xs.filter (fun y => y != x))
termination_by l => l.length
decreasing_by
  simp only [List.length_cons]
  exact Nat.lt_succ_of_le (List.length_filter_le _ _)

/-- Ordered-`dict` lookup (first entry with the given key). -/
def alookup {α : Type} (k : String) : List (String × α) → Option α
  | [] => none
  | kv :: rest => if kv.1 = k then some kv.2 else alookup k rest

/-! ## HTML side: data model and `recurse` (lines 26-49) -/

/-- The attributes of one element, as far as the source consumes them:
`id` (single string), `class` (list of class names), and a flag recording
whether any other attribute is present (`element.attrs` truthiness). -/
structure Attrs where
  idAttr : Option String
  classes : List String
  other : Bool
deriving Repr, DecidableEq

/-- A parsed HTML node, as handed over by the HTML parser collaborator:
a text leaf (skipped by `recurse` via `isinstance(group, str)`) or an element
with a tag name, attributes and ordered children. -/
inductive HtmlNode where
  | text (s : String)
  | elem (name : String) (attrs : Attrs) (children : List HtmlNode)

/-- The nested-dictionary value built by `recurse`: the optional
`"attributes"` entry (always inserted first, before any child tag key, since
`tmp_collector` is created with it) and the tag-name groups in insertion
order, each holding the child dictionaries of all same-named children.
The Python dict key `"attributes"` is kept structurally apart from the
tag-name keys, so this representation covers exactly the trees with no
element named `attributes`.  The fallible model `recurseF` below represents
the full Python dict (where an element named `attributes` collides with the
attribute entry and `collector_dict[element.name] += ...` raises `TypeError`
under an attributed parent); `recurseF_eq_recurse` proves the two models
agree on the `attributes`-free domain. -/
inductive NDict where
  | mk (attrs : Option Attrs) (groups : List (String × List NDict))

/-- Group list of a nested dictionary. -/
def NDict.groups : NDict → List (String × List NDict)
  | .mk _ gs => gs

/-- Truthiness of `element.attrs`. -/
def attrsPresent (a : Attrs) : Bool := a.idAttr.isSome || !a.classes.isEmpty || a.other

/-- The two source lines
`if not element.name in collector_dict: collector_dict[element.name] = []`
and `collector_dict[element.name] += (child_dict,)`: append the child
dictionary to the tag's group, creating the group at the end of the dict when
the tag is new. -/
def dictAppend (d : List (String × List NDict)) (k : String) (c : NDict) :
    List (String × List NDict) :=
  match d with
  | [] => [(k, [c])]
  | (k2, l) :: rest => if k2 = k then (k2, l ++ [c]) :: rest else (k2, l) :: dictAppend rest k c

/-- `recurse` (source lines 26-49), total model: iterate the children, skip
text nodes, and append each element's dictionary (attributes entry first,
then its own recursively built groups) into the collector.  Valid on trees
with no element named `attributes`; the faithful fallible transcription of
the same source lines, including the `TypeError` on the attributes-key
collision, is `recurseF`, and `recurseF_eq_recurse` proves the agreement. -/
def recurse : List HtmlNode → List (String × List NDict) → List (String × List NDict)
  | [], collector => collector
  | .text _ :: rest, collector => recurse rest collector
  | .elem name a children :: rest, collector =>
      recurse rest (dictAppend collector name
        (.mk (if attrsPresent a then some a else none) (recurse children [])))

/-- The dictionary `recurse` builds for one element node. -/
def toDict : HtmlNode → NDict
  | .text _ => .mk none []
  | .elem _ a children => .mk (if attrsPresent a then some a else none) (recurse children [])

/-- Identifier tokens contributed by an attribute mapping: `#<id>` if an `id`
is present, then one `.<class>` per class name in declared order
(source lines 90-95 and 106-111). -/
def attrTokens (a : Attrs) : List String :=
  (match a.idAttr with
   | some i => ["#" ++ i]
   | none => []) ++ a.classes.map (fun c => "." ++ c)

/-- Tokens of the optional `"attributes"` entry of a dictionary. -/
def attrTokensOpt : Option Attrs → List String
  | none => []
  | some a => attrTokens a

/-! `get_identifiers_in_order` (source lines 72-118).  The function receives
either a dict or a list of dicts.  On a list it first checks whether the
first dict has a `"body"` key (`html_dict[0]`, an `IndexError` on an empty
list — the `[]` equations below return `[]` there; `recurse` never produces an
empty group, see `wfGroups_recurse`); if so it yields `"body"` and loops over
the body group only, otherwise it loops over the whole list.  Looping over a
dict yields the attribute tokens (the `"attributes"` key comes first), then
for each tag key the tag name followed by the recursive traversal of its
group. -/

mutual
/-- Dict branch of `get_identifiers_in_order`: one `for key, value in
dict.items()` loop. -/
def emitD : NDict → List String
  | .mk a gs => attrTokensOpt a ++ emitGs gs

/-- Items loop over the tag-name groups of one dict. -/
def emitGs : List (String × List NDict) → List String
  | [] => []
  | (t, l) :: gs => (t :: identsOfListT l) ++ emitGs gs

/-- List branch of `get_identifiers_in_order`, including the
`if "body" in html_dict[0]` redirection. -/
def identsOfListT : List NDict → List String
  | [] => []
  | d :: rest =>
    match bodyLoop d with
    | some s => "body" :: s
    | none => emitD d ++ listLoopT rest

/-- `html_dict[0]["body"]` probe: the list-loop output of the `"body"` group
of the first dict, when that key exists. -/
def bodyLoop : NDict → Option (List String)
  | .mk _ gs => bodyLoopGs gs

/-- Scan of the groups for the `"body"` key. -/
def bodyLoopGs : List (String × List NDict) → Option (List String)
  | [] => none
  | (t, l) :: gs => if t = "body" then some (listLoopT l) else bodyLoopGs gs

/-- Plain `for dictionary in start_node` loop (no body redirection). -/
def listLoopT : List NDict → List String
  | [] => []
  | d :: rest => emitD d ++ listLoopT rest
end

/-- Entry logic of `get_html_element_order` (lines 130-136): try
`html_dict["html"]` (list branch), fall back to the whole dict on `KeyError`. -/
def identsEntry (gs : List (String × List NDict)) : List String :=
  match alookup "html" gs with
  | some l => identsOfListT l
  | none => emitGs gs

/-- `get_html_element_order` (lines 122-142), starting from the parsed
top-level node list (file reading and HTML lexing are collaborator work):
traverse and collapse to first occurrences via `tuple(dict.fromkeys(...))`. -/
def get_html_element_order (nodes : List HtmlNode) : List String :=
  dedupKeepFirst (identsEntry (recurse nodes []))

/-! Well-formedness of `recurse` output: every tag group is non-empty (so the
`html_dict[0]` subscripts in the source are always in bounds). -/

mutual
/-- All groups of a dict are non-empty and recursively well-formed. -/
def wfDict : NDict → Bool
  | .mk _ gs => wfGroups gs

/-- All groups of a group list are non-empty and recursively well-formed. -/
def wfGroups : List (String × List NDict) → Bool
  | [] => true
  | (_, l) :: gs => !l.isEmpty && wfList l && wfGroups gs

/-- All dicts of a list are well-formed. -/
def wfList : List NDict → Bool
  | [] => true
  | d :: rest => wfDict d && wfList rest
end

/-- Tag name of a node, `none` for text. -/
def tagName : HtmlNode → Option String
  | .text _ => none
  | .elem n _ _ => some n

/-- Tag names of the element nodes of a forest, in document order. -/
def tagsOf (nodes : List HtmlNode) : List String := nodes.filterMap tagName

/-- The element nodes of a forest carrying a given tag, in document order. -/
def elemsNamed (t : String) (nodes : List HtmlNode) : List HtmlNode :=
  nodes.filter (fun e => tagName e == some t)

mutual
/-- No child of this node is an element named `body` (so the
`"body" in html_dict[0]` redirection never fires below it). -/
def bodyChildFree : HtmlNode → Bool
  | .text _ => true
  | .elem _ _ children => !((tagsOf children).contains "body") && forestBodyFree children

/-- `bodyChildFree` on every node of a forest. -/
def forestBodyFree : List HtmlNode → Bool
  | [] => true
  | e :: rest => bodyChildFree e && forestBodyFree rest
end

mutual
/-- No element in this node's subtree (itself included) carries the given
tag name. -/
def noTagNode (bad : String) : HtmlNode → Bool
  | .text _ => true
  | .elem n _ children => !(n == bad) && forestNoTag bad children

/-- `noTagNode` on every node of a forest. -/
def forestNoTag (bad : String) : List HtmlNode → Bool
  | [] => true
  | e :: rest => noTagNode bad e && forestNoTag bad rest
end

/-! ## The faithful fallible collector (`recurse` with the `TypeError` path)

The Python `collector_dict` maps strings to either the attrs dict (under the
key `"attributes"`) or a list of child dicts (under a tag name).  `FVal` is
that value type, so a dict is `List (String × FVal)` and an element named
`attributes` is representable.  `recurseF` transcribes the loop body of the
source `recurse` directly: the membership-guarded initialisation
(`if not element.name in collector_dict: collector_dict[element.name] = []`),
the `tmp_collector` creation, the recursion into the children, and
`collector_dict[element.name] += (child_dict,)` — which on a list value
extends the list and on the attrs dict value raises `TypeError`, modelled as
`none`. -/

/-- A Python `collector_dict` value: the attrs dict or a tag group. -/
inductive FVal where
  | attrsV (a : Attrs)
  | groupV (l : List (List (String × FVal)))

/-- `if not element.name in collector_dict: collector_dict[element.name] = []`:
create the key with an empty list only when absent. -/
def fdictInit (d : List (String × FVal)) (k : String) : List (String × FVal) :=
  if k ∈ d.map Prod.fst then d else d ++ [(k, .groupV [])]

/-- `collector_dict[element.name] += (child_dict,)`: extend the list value in
place; on the attrs-dict value Python raises `TypeError` (`none` here).  The
`[]` case is the `KeyError` of an absent key, unreachable after `fdictInit`. -/
def fdictPlus : List (String × FVal) → String → List (String × FVal) →
    Option (List (String × FVal))
  | [], _, _ => none
  | (k2, v) :: rest, k, c =>
    if k2 = k then
      match v with
      | .groupV l => some ((k2, .groupV (l ++ [c])) :: rest)
      | .attrsV _ => none
    else (fdictPlus rest k c).map (fun d => (k2, v) :: d)

/-- Faithful fallible `recurse` (source lines 26-49), including the
`TypeError` on the attributes-key collision. -/
def recurseF : List HtmlNode → List (String × FVal) → Option (List (String × FVal))
  | [], collector => some collector
  | .text _ :: rest, collector => recurseF rest collector
  | .elem name a children :: rest, collector =>
      match recurseF children
          (if attrsPresent a then [("attributes", FVal.attrsV a)] else []) with
      | none => none
      | some child =>
        match fdictPlus (fdictInit collector name) name child with
        | none => none
        | some collector2 => recurseF rest collector2

/-- The `"attributes"` entry of a dict, in `FVal` form. -/
def optAttrsF : Option Attrs → List (String × FVal)
  | none => []
  | some a => [("attributes", FVal.attrsV a)]

mutual
/-- Conversion of the total model's per-element dictionary into the full
Python dict shape: attrs entry first, then the tag groups. -/
def ndToF : NDict → List (String × FVal)
  | .mk oa gs => optAttrsF oa ++ groupsToF gs

/-- Conversion of a tag-group list into `FVal` entries. -/
def groupsToF : List (String × List NDict) → List (String × FVal)
  | [] => []
  | (t, l) :: gs => (t, FVal.groupV (listToF l)) :: groupsToF gs

/-- Conversion of a list of dictionaries. -/
def listToF : List NDict → List (List (String × FVal))
  | [] => []
  | d :: rest => ndToF d :: listToF rest
end

/-- Modelled from the claim C2's words ("first `#<id>`, then one `.<class>`
token per class name, then the element's tag name itself, then the
identifiers of its children in document order"): the per-element emission
order the claim asserts. -/
def claimEmit : List HtmlNode → List String
  | [] => []
  | .text _ :: rest => claimEmit rest
  | .elem n a children :: rest => attrTokens a ++ [n] ++ claimEmit children ++ claimEmit rest

mutual
/-- Specification-side description of what the flattener actually emits on a
forest: for each distinct child tag in order of first occurrence, the tag
name once, then for each same-named sibling in document order its `#id` and
`.class` tokens followed by its children's identifiers (same grouped
discipline, recursively). -/
def specEmitForest (nodes : List HtmlNode) : List String :=
  (firstDedup (tagsOf nodes)).flatMap (fun t =>
    t :: (elemsNamed t nodes).attach.flatMap (fun e => specEmitElem e.1))
termination_by sizeOf nodes
decreasing_by
  have h1 : e.1 ∈ nodes := (List.mem_filter.mp e.2).1
  exact List.sizeOf_lt_of_mem h1

/-- Specification-side emission of one element, past its tag name. -/
def specEmitElem : HtmlNode → List String
  | .text _ => []
  | .elem _ a children => attrTokens a ++ specEmitForest children
termination_by e => sizeOf e
decreasing_by
  simp only [HtmlNode.elem.sizeOf_spec]
  omega
end

/-! ## CSS side: `css_to_dict` (lines 145-164) -/

/-- One rule handed over by the CSS parser collaborator (`sheet.cssRules`):
a comment node (its `cssText`, the verbatim `/* ... */` text) or a style rule
(its `selectorText` and the `;`-separated `style.cssText` dump). -/
inductive CssParsedRule where
  | comment (text : String)
  | style (selectorText : String) (cssText : String)
deriving Repr, DecidableEq

/-- Value stored by `css_to_dict`: the pending comment and the raw property
dump, both plain strings. -/
structure RawRule where
  comment : String
  props : String
deriving Repr, DecidableEq

/-- Value stored by `format_css_dict`: the comment and the split property
list. -/
structure CssRule where
  comment : String
  props : List String
deriving Repr, DecidableEq

/-- Python ordered-`dict` assignment `d[k] = v`: overwrite in place (keeping
the key's position) or append a new entry.  `css_to_dict` always overwrites
both fields, so its `setdefault` plus the two assignments collapse to this. -/
def dictSet (d : List (String × RawRule)) (k : String) (v : RawRule) :
    List (String × RawRule) :=
  match d with
  | [] => [(k, v)]
  | (k2, v2) :: rest => if k2 = k then (k2, v) :: rest else (k2, v2) :: dictSet rest k v

/-- One iteration of the `for rule in sheet.cssRules` loop of `css_to_dict`:
a comment overwrites the pending slot; a style rule stores the pending
comment and its `style.cssText` under its `selectorText`, then clears the
pending slot. -/
def cssStep : String × List (String × RawRule) → CssParsedRule → String × List (String × RawRule)
  | (_, d), .comment t => (t, d)
  | (pending, d), .style sel txt => ("", dictSet d sel ⟨pending, txt⟩)

/-- The full `css_to_dict` loop state (pending comment, dict) after the given
rules, starting from `("", {})`. -/
def cssFold (rules : List CssParsedRule) : String × List (String × RawRule) :=
  rules.foldl cssStep ("", [])

/-- `css_to_dict` (lines 145-164). -/
def css_to_dict (rules : List CssParsedRule) : List (String × RawRule) :=
  (cssFold rules).2

/-! ## `format_css_dict` (lines 167-198) -/

/-- `re.split(";", props)` followed by `prop.replace("\n", "").strip()` on
each piece. -/
def splitProps (props : String) : List String :=
  (splitOnChar ';' props).map (fun p => trimStr ⟨p.data.filter (fun c => c != '\n')⟩)

/-- The `if selector not in formated_css_dict ... else ...` body: insert a
fresh entry at the end, or append the comment text and the split declarations
to the existing entry in place. -/
def fmtInsert (acc : List (String × CssRule)) (c : String) (ps : List String) (sel : String) :
    List (String × CssRule) :=
  match acc with
  | [] => [(sel, ⟨c, ps⟩)]
  | (k, r) :: rest =>
    if k = sel then (k, ⟨r.comment ++ c, r.props ++ ps⟩) :: rest
    else (k, r) :: fmtInsert rest c ps sel

/-- Processing of one `css_dict` entry: split the property dump once, then
fold the comma-split, trimmed selectors through `fmtInsert`. -/
def fmtEntry (acc : List (String × CssRule)) (kv : String × RawRule) :
    List (String × CssRule) :=
  ((splitOnChar ',' kv.1).map trimStr).foldl
    (fun a sel => fmtInsert a kv.2.comment (splitProps kv.2.props) sel) acc

/-- `format_css_dict` (lines 167-198): merge all entries, then sort every
property list alphabetically (`sorted(value["props"])`). -/
def format_css_dict (css_dict : List (String × RawRule)) : List (String × CssRule) :=
  (css_dict.foldl fmtEntry []).map
    (fun kr => (kr.1, ⟨kr.2.comment, List.insertionSort strLe kr.2.props⟩))

/-! ## The two sort strategies (lines 201-233) -/

/-- `sort_css_by_keys` (lines 201-212): sort all keys, keep first those not
starting with `.`/`#`, then those starting with `.`/`#`; each key fetches its
value from the dict.  (The `filterMap` lookup always succeeds because the
keys come from the dict itself, mirroring `css_dict[key]`.) -/
def sort_css_by_keys (css_dict : List (String × CssRule)) : List (String × CssRule) :=
  (((List.insertionSort strLe (css_dict.map Prod.fst)).filter
      (fun k => !startsDotHash k)).filterMap
        (fun k => (alookup k css_dict).map (fun v => (k, v))))
  ++ (((List.insertionSort strLe (css_dict.map Prod.fst)).filter
      (fun k => startsDotHash k)).filterMap
        (fun k => (alookup k css_dict).map (fun v => (k, v))))

/-- `list(filter(None, re.split(" |:", css)))[0].strip()`: the leading simple
token of a selector.  `none` models the `IndexError` Python raises when every
piece is empty. -/
def leadingToken (css : String) : Option String :=
  ((splitChars (fun c => c == ' ' || c == ':') css.data).map
      (fun l => (⟨l⟩ : String))).filter (fun p => p != "") |>.head? |>.map trimStr

/-- Inner loop of `sort_css_by_html`: scan every dict entry, appending those
whose leading token equals the identifier and whose key is not yet placed.
The token is computed (and can fail) for every entry scanned, matching the
evaluation order of the Python conjunction. -/
def placePass : List (String × CssRule) → String → List (String × CssRule) →
    Option (List (String × CssRule))
  | [], _, result => some result
  | (css, value) :: rest, html_elem, result =>
    match leadingToken css with
    | none => none
    | some tok =>
      placePass rest html_elem
        (if tok = html_elem ∧ alookup css result = none then result ++ [(css, value)]
         else result)

/-- Outer loop of `sort_css_by_html` over the identifier sequence. -/
def sortHtmlGo (css_dict : List (String × CssRule)) :
    List String → List (String × CssRule) → Option (List (String × CssRule))
  | [], result => some result
  | e :: es, result => (placePass css_dict e result).bind (sortHtmlGo css_dict es)

/-- `sort_css_by_html` (lines 215-233). -/
def sort_css_by_html (css_dict : List (String × CssRule))
    (html_element_order : List String) : Option (List (String × CssRule)) :=
  sortHtmlGo css_dict html_element_order []

/-! ## `generate_output_str` (lines 236-255) -/

/-- `generate_output_str` (lines 236-255): for each entry append the comment
sandwiched in newlines (or a bare newline), the `<selector> {` line, one
`    <property>;` line per property, and the closing `}` line. -/
def generate_output_str (css_dict : List (String × CssRule)) : String :=
  css_dict.foldl
    (fun result_str kv =>
      let withComment :=
        if kv.2.comment = "" then result_str ++ "\n"
        else result_str ++ "\n" ++ kv.2.comment ++ "\n"
      let withHeader := withComment ++ kv.1 ++ " \x7b\n"
      let withProps := kv.2.props.foldl (fun acc p => acc ++ "    " ++ p ++ ";\n") withHeader
      withProps ++ "\x7d\n")
    ""

/-- Property lines of one block, specification side. -/
def specPropLines : List String → String
  | [] => ""
  | p :: ps => "    " ++ p ++ ";\n" ++ specPropLines ps

/-- Modelled from the claim C4's words: block shape with the comment text
followed by a newline (no leading newline) and a bare closing brace. -/
def specBlockClaim (kv : String × CssRule) : String :=
  (if kv.2.comment = "" then "\n" else kv.2.comment ++ "\n")
  ++ kv.1 ++ " \x7b\n" ++ specPropLines kv.2.props ++ "\x7d"

/-- Claim-side rendering: concatenation of `specBlockClaim` blocks. -/
def specRenderClaim : List (String × CssRule) → String
  | [] => ""
  | kv :: rest => specBlockClaim kv ++ specRenderClaim rest

/-- Amended block shape: a newline, the comment, a newline (or a single bare
newline), the header line, the property lines, and `}` followed by a
newline. -/
def specBlockAmended (kv : String × CssRule) : String :=
  (if kv.2.comment = "" then "\n" else "\n" ++ kv.2.comment ++ "\n")
  ++ kv.1 ++ " \x7b\n" ++ specPropLines kv.2.props ++ "\x7d\n"

/-- Amended rendering: concatenation of `specBlockAmended` blocks. -/
def specRenderAmended : List (String × CssRule) → String
  | [] => ""
  | kv :: rest => specBlockAmended kv ++ specRenderAmended rest

/-! ## Specification-side descriptions for the CSS parsing claims -/

/-- Nearest comment before the end of the rule prefix with no style rule in
between: since every rule is a comment or a style rule, this is determined by
the last rule of the prefix. -/
def specNearestComment (pre : List CssParsedRule) : String :=
  match pre.getLast? with
  | some (.comment t) => t
  | _ => ""

/-- Selector texts of the style rules, in source order. -/
def styleSelectors (rules : List CssParsedRule) : List String :=
  rules.filterMap (fun r =>
    match r with
    | .style sel _ => some sel
    | .comment _ => none)

/-- Encounter list of `format_css_dict`: one triple (trimmed selector piece,
comment, split declarations) per comma piece of each entry, in source order. -/
def encounters (d : List (String × RawRule)) : List (String × String × List String) :=
  d.flatMap (fun kv =>
    ((splitOnChar ',' kv.1).map trimStr).map (fun s => (s, kv.2.comment, splitProps kv.2.props)))

/-- `fmtInsert` folded over a list of encounter triples. -/
def mergeTriples : List (String × String × List String) → List (String × CssRule) →
    List (String × CssRule)
  | [], acc => acc
  | t :: ts, acc => mergeTriples ts (fmtInsert acc t.2.1 t.2.2 t.1)

/-- Concatenation, in encounter order, of the comments attached to a
selector's encounters. -/
def comsFor (s : String) : List (String × String × List String) → String
  | [] => ""
  | t :: ts => if t.1 = s then t.2.1 ++ comsFor s ts else comsFor s ts

/-- Concatenation, in encounter order, of the declarations attached to a
selector's encounters. -/
def propsFor (s : String) : List (String × String × List String) → List String
  | [] => []
  | t :: ts => if t.1 = s then t.2.2 ++ propsFor s ts else propsFor s ts

/-- Expected output of the HTML-order sort: for each identifier in sequence
order, the model entries whose leading token is that identifier, in model
(insertion) order. -/
def flattenPlaced (m : List (String × CssRule)) (ps : List String) :
    List (String × CssRule) :=
  ps.flatMap (fun e => m.filter (fun kv => decide (leadingToken kv.1 = some e)))

/-! ## General association-list lemmas -/

theorem alookup_append {α : Type} (k : String) (l r : List (String × α)) :
    alookup k (l ++ r) =
      match alookup k l with
      | some v => some v
      | none => alookup k r := by
  induction l with
  | nil => simp [alookup]
  | cons kv rest ih =>
    by_cases h : kv.1 = k
    · simp [alookup, h]
    · simpa [alookup, h] using ih

theorem alookup_isSome_iff {α : Type} (k : String) (l : List (String × α)) :
    (alookup k l).isSome = true ↔ k ∈ l.map Prod.fst := by
  induction l with
  | nil => simp [alookup]
  | cons kv rest ih =>
    by_cases h : kv.1 = k
    · simp [alookup, h]
    · simp [alookup, h, ih, Ne.symm h]

theorem alookup_mem {α : Type} {k : String} {v : α} {l : List (String × α)}
    (h : alookup k l = some v) : (k, v) ∈ l := by
  induction l with
  | nil => simp [alookup] at h
  | cons kv rest ih =>
    by_cases hk : kv.1 = k
    · obtain ⟨k1, v1⟩ := kv
      simp only at hk
      subst hk
      simp only [alookup, if_pos] at h
      injection h with h
      subst h
      exact List.mem_cons_self _ _
    · simp only [alookup, hk, if_neg, if_false] at h
      exact List.mem_cons_of_mem _ (ih h)

theorem alookup_eq_of_mem {α : Type} {k : String} {v : α} {l : List (String × α)}
    (hnd : (l.map Prod.fst).Nodup) (h : (k, v) ∈ l) : alookup k l = some v := by
  induction l with
  | nil => simp at h
  | cons kv rest ih =>
    simp only [List.map_cons, List.nodup_cons] at hnd
    rcases List.mem_cons.mp h with h1 | h1
    · simp [alookup, ← h1]
    · have hk : kv.1 ≠ k := by
        intro he
        exact hnd.1 (he ▸ (List.mem_map.mpr ⟨(k, v), h1, rfl⟩))
      simp [alookup, hk, ih hnd.2 h1]

theorem str_empty_append (s : String) : "" ++ s = s := by
  cases s
  rfl

/-! ## C4: the serializer -/

theorem propLines_foldl (ps : List String) (acc : String) :
    ps.foldl (fun a p => a ++ "    " ++ p ++ ";\n") acc = acc ++ specPropLines ps := by
  induction ps generalizing acc with
  | nil => simp [specPropLines]
  | cons p ps ih =>
    simp only [List.foldl_cons, specPropLines]
    rw [ih]
    simp [String.append_assoc]

theorem generate_output_foldl (m : List (String × CssRule)) (acc : String) :
    m.foldl
      (fun result_str kv =>
        let withComment :=
          if kv.2.comment = "" then result_str ++ "\n"
          else result_str ++ "\n" ++ kv.2.comment ++ "\n"
        let withHeader := withComment ++ kv.1 ++ " \x7b\n"
        let withProps := kv.2.props.foldl (fun acc p => acc ++ "    " ++ p ++ ";\n") withHeader
        withProps ++ "\x7d\n") acc
    = acc ++ specRenderAmended m := by
  induction m generalizing acc with
  | nil => simp [specRenderAmended]
  | cons kv rest ih =>
    by_cases h : kv.2.comment = ""
    · simp only [List.foldl_cons, specRenderAmended, specBlockAmended, h, if_pos]
      rw [ih, propLines_foldl]
      simp [String.append_assoc]
    · simp only [List.foldl_cons, specRenderAmended, specBlockAmended, h, if_neg,
        ite_false]
      rw [ih, propLines_foldl]
      simp [String.append_assoc]

/-- C4 counterexample: on the model `{"a": {comment: "/* c */", props: ["x: y"]}}`
the code emits a newline before the comment and a newline after the closing
brace, while the block shape the claim states (comment text followed by a
newline, closing `}` bare) does not. -/
theorem C4_counterexample :
    generate_output_str [("a", ⟨"/* c */", ["x: y"]⟩)]
        = "\n/* c */\na \x7b\n    x: y;\n\x7d\n"
    ∧ specRenderClaim [("a", ⟨"/* c */", ["x: y"]⟩)]
        = "/* c */\na \x7b\n    x: y;\n\x7d"
    ∧ ("\n/* c */\na \x7b\n    x: y;\n\x7d\n" : String)
        ≠ "/* c */\na \x7b\n    x: y;\n\x7d" := by
  refine ⟨by decide, by decide, by decide⟩

/-- C4 (amended): for every ordered model, the serializer output is the
in-order concatenation of one block per selector, each block being exactly: a
newline, then the comment text and another newline when the comment is
non-empty, otherwise just the single bare newline; then the selector text, a
space and an opening brace on one line; then one indented `<property>;` line
per property in order; then a closing brace followed by a newline.  The output
is a pure function of the ordered model. -/
theorem C4_serializer_amended (m : List (String × CssRule)) :
    generate_output_str m = specRenderAmended m := by
  simpa [str_empty_append] using generate_output_foldl m ""

/-! ## C7: comment attachment in `css_to_dict` -/

theorem cssFold_concat (l : List CssParsedRule) (r : CssParsedRule) :
    cssFold (l ++ [r]) = cssStep (cssFold l) r := by
  simp [cssFold, List.foldl_append]

theorem cssFold_pending (rules : List CssParsedRule) :
    (cssFold rules).1 = specNearestComment rules := by
  induction rules using List.reverseRecOn with
  | nil => rfl
  | append_singleton l r ih =>
    cases r with
    | comment t => simp [cssFold_concat, cssStep, specNearestComment]
    | style sel txt => simp [cssFold_concat, cssStep, specNearestComment]

theorem alookup_dictSet_self (d : List (String × RawRule)) (k : String) (v : RawRule) :
    alookup k (dictSet d k v) = some v := by
  induction d with
  | nil => simp [dictSet, alookup]
  | cons kv rest ih =>
    by_cases h : kv.1 = k
    · simp [dictSet, h, alookup]
    · simp [dictSet, h, alookup, ih]

theorem alookup_dictSet_ne (d : List (String × RawRule)) {k k2 : String} (v : RawRule)
    (h : k ≠ k2) : alookup k (dictSet d k2 v) = alookup k d := by
  induction d with
  | nil => simp [dictSet, alookup, Ne.symm h]
  | cons kv rest ih =>
    by_cases h2 : kv.1 = k2
    · simp [dictSet, h2, alookup, Ne.symm h]
    · simp [dictSet, h2, alookup, ih]

/-- C7: when `css_to_dict` handles a style rule, the comment it stores is the
pending slot, which equals the verbatim text of the nearest comment node
preceding the rule with no other style rule in between (empty when there is
none, since a style rule clears the slot); after the rule is handled the
pending slot is empty again, so a comment node attaches to at most one style
rule. -/
theorem C7_comment_attachment (pre : List CssParsedRule) (sel txt : String) :
    (cssFold pre).1 = specNearestComment pre
    ∧ (cssFold (pre ++ [CssParsedRule.style sel txt])).1 = ""
    ∧ alookup sel (css_to_dict (pre ++ [CssParsedRule.style sel txt]))
        = some ⟨specNearestComment pre, txt⟩ := by
  refine ⟨cssFold_pending pre, ?_, ?_⟩
  · simp [cssFold_concat, cssStep]
  · have h2 : css_to_dict (pre ++ [CssParsedRule.style sel txt])
        = dictSet (css_to_dict pre) sel ⟨(cssFold pre).1, txt⟩ := by
      simp [css_to_dict, cssFold_concat, cssStep, cssFold]
    rw [h2, cssFold_pending, alookup_dictSet_self]

/-! ## The `strLe` order (Python string comparison) -/

theorem charListLe_refl (l : List Char) : charListLe l l = true := by
  induction l with
  | nil => rfl
  | cons a as ih => simp [charListLe, ih]

theorem charListLe_total (a b : List Char) :
    charListLe a b = true ∨ charListLe b a = true := by
  induction a generalizing b with
  | nil => left; rfl
  | cons x xs ih =>
    cases b with
    | nil => right; rfl
    | cons y ys =>
      rcases Nat.lt_trichotomy x.toNat y.toNat with h | h | h
      · left; simp [charListLe, h]
      · rcases ih ys with h2 | h2
        · left; simp [charListLe, h, h2]
        · right; simp [charListLe, h.symm, h2]
      · right; simp [charListLe, h]

theorem charListLe_trans {a b c : List Char} (h1 : charListLe a b = true)
    (h2 : charListLe b c = true) : charListLe a c = true := by
  induction a generalizing b c with
  | nil => rfl
  | cons x xs ih =>
    cases b with
    | nil => simp [charListLe] at h1
    | cons y ys =>
      cases c with
      | nil => simp [charListLe] at h2
      | cons z zs =>
        simp only [charListLe] at h1 h2 ⊢
        by_cases hxy : x.toNat < y.toNat
        · by_cases hyz : y.toNat < z.toNat
          · simp [show x.toNat < z.toNat by omega]
          · by_cases hzy : z.toNat < y.toNat
            · simp [hyz, hzy] at h2
            · simp [show x.toNat < z.toNat by omega]
        · by_cases hyx : y.toNat < x.toNat
          · simp [hxy, hyx] at h1
          · by_cases hyz : y.toNat < z.toNat
            · simp [show x.toNat < z.toNat by omega]
            · by_cases hzy : z.toNat < y.toNat
              · simp [hyz, hzy] at h2
              · have hxz : ¬ x.toNat < z.toNat := by omega
                have hzx : ¬ z.toNat < x.toNat := by omega
                simp only [hxy, hyx, if_false] at h1
                simp only [hyz, hzy, if_false] at h2
                simp only [hxz, hzx, if_false]
                exact ih h1 h2

theorem charListLe_antisymm {a b : List Char} (h1 : charListLe a b = true)
    (h2 : charListLe b a = true) : a = b := by
  induction a generalizing b with
  | nil =>
    cases b with
    | nil => rfl
    | cons y ys => simp [charListLe] at h2
  | cons x xs ih =>
    cases b with
    | nil => simp [charListLe] at h1
    | cons y ys =>
      simp only [charListLe] at h1 h2
      rcases Nat.lt_trichotomy x.toNat y.toNat with hxy | hxy | hxy
      · simp [hxy, Nat.lt_asymm hxy] at h2
      · have hx : x = y := Char.ext (UInt32.ext hxy)
        subst hx
        simp only [Nat.lt_irrefl, if_false] at h1 h2
        exact congrArg (x :: ·) (ih h1 h2)
      · simp [hxy, Nat.lt_asymm hxy] at h1

instance : IsTrans String strLe :=
  ⟨fun _ _ _ h1 h2 => charListLe_trans h1 h2⟩

instance : IsTotal String strLe :=
  ⟨fun a b => charListLe_total a.data b.data⟩

instance : IsAntisymm String strLe :=
  ⟨fun a b h1 h2 => by
    cases a with
    | mk da =>
      cases b with
      | mk db => exact congrArg String.mk (charListLe_antisymm h1 h2)⟩

instance : IsRefl String strLe := ⟨fun a => charListLe_refl a.data⟩

/-! ## C5: the lexicographic sort's key order -/

theorem filter_insertionSort (q : String → Bool) (l : List String) :
    (List.insertionSort strLe l).filter q = List.insertionSort strLe (l.filter q) := by
  exact @List.eq_of_perm_of_sorted String strLe _ _ _
    (((List.perm_insertionSort strLe l).filter q).trans
      (List.perm_insertionSort strLe (l.filter q)).symm)
    ((List.sorted_insertionSort strLe l).filter q)
    (List.sorted_insertionSort strLe _)

theorem map_fst_filterMap_alookup (m : List (String × CssRule)) (ks : List String)
    (h : ∀ k ∈ ks, k ∈ m.map Prod.fst) :
    (ks.filterMap (fun k => (alookup k m).map (fun v => (k, v)))).map Prod.fst = ks := by
  induction ks with
  | nil => simp
  | cons k ks ih =>
    have hk : k ∈ m.map Prod.fst := h k (List.mem_cons_self k ks)
    have hs : (alookup k m).isSome = true := (alookup_isSome_iff k m).mpr hk
    obtain ⟨v, hv⟩ := Option.isSome_iff_exists.mp hs
    simp only [List.filterMap_cons, hv, Option.map_some]
    simpa using ih (fun k2 hk2 => h k2 (List.mem_cons_of_mem _ hk2))

theorem sort_css_by_keys_keys (m : List (String × CssRule)) :
    (sort_css_by_keys m).map Prod.fst
      = List.insertionSort strLe ((m.map Prod.fst).filter (fun k => !startsDotHash k))
        ++ List.insertionSort strLe ((m.map Prod.fst).filter (fun k => startsDotHash k)) := by
  have hmem : ∀ (q : String → Bool) k,
      k ∈ (List.insertionSort strLe (m.map Prod.fst)).filter q → k ∈ m.map Prod.fst :=
    fun q k hk =>
      ((List.perm_insertionSort strLe (m.map Prod.fst)).mem_iff).mp (List.mem_filter.mp hk).1
  unfold sort_css_by_keys
  rw [List.map_append, map_fst_filterMap_alookup _ _ (hmem _),
    map_fst_filterMap_alookup _ _ (hmem _), filter_insertionSort, filter_insertionSort]

/-- C5: the lexicographic sort's output key sequence is all keys not starting
with `.`/`#` in sorted order, followed by all keys starting with `.`/`#` in
sorted order; in particular every tag-selector key precedes every
id/class-selector key (second conjunct, stated positionally). -/
theorem C5_lex_key_order (m : List (String × CssRule)) :
    ((sort_css_by_keys m).map Prod.fst
      = List.insertionSort strLe ((m.map Prod.fst).filter (fun k => !startsDotHash k))
        ++ List.insertionSort strLe ((m.map Prod.fst).filter (fun k => startsDotHash k)))
    ∧ ∀ (i j : Nat) (hi : i < ((sort_css_by_keys m).map Prod.fst).length)
        (hj : j < ((sort_css_by_keys m).map Prod.fst).length),
        startsDotHash (((sort_css_by_keys m).map Prod.fst)[i]) = true →
        startsDotHash (((sort_css_by_keys m).map Prod.fst)[j]) = false → j < i := by
  refine ⟨sort_css_by_keys_keys m, ?_⟩
  intro i j hi hj hpi hpj
  set A := List.insertionSort strLe ((m.map Prod.fst).filter (fun k => !startsDotHash k)) with hA
  set B := List.insertionSort strLe ((m.map Prod.fst).filter (fun k => startsDotHash k)) with hB
  have hL : (sort_css_by_keys m).map Prod.fst = A ++ B := sort_css_by_keys_keys m
  have hAmem : ∀ x ∈ A, startsDotHash x = false := by
    intro x hx
    have : x ∈ (m.map Prod.fst).filter (fun k => !startsDotHash k) :=
      ((List.perm_insertionSort strLe _).mem_iff).mp hx
    have := (List.mem_filter.mp this).2
    simpa using this
  have hBmem : ∀ x ∈ B, startsDotHash x = true := by
    intro x hx
    have : x ∈ (m.map Prod.fst).filter (fun k => startsDotHash k) :=
      ((List.perm_insertionSort strLe _).mem_iff).mp hx
    exact (List.mem_filter.mp this).2
  have hgi : (A ++ B)[i]? = some (((sort_css_by_keys m).map Prod.fst)[i]) := by
    rw [← hL]
    exact List.getElem?_eq_getElem hi
  have hgj : (A ++ B)[j]? = some (((sort_css_by_keys m).map Prod.fst)[j]) := by
    rw [← hL]
    exact List.getElem?_eq_getElem hj
  have hiA : A.length ≤ i := by
    by_contra hlt
    push_neg at hlt
    rw [List.getElem?_append_left hlt] at hgi
    have hmemA := List.getElem?_mem hgi
    have hfalse := hAmem _ hmemA
    exact Bool.false_ne_true (hfalse.symm.trans hpi)
  have hjA : j < A.length := by
    by_contra hge
    push_neg at hge
    rw [List.getElem?_append_right hge] at hgj
    have hmemB := List.getElem?_mem hgj
    have htrue := hBmem _ hmemB
    exact absurd (htrue.symm.trans hpj) (by decide)
  omega

/-! ## C10: the lexicographic sort is a pure reordering -/

theorem filterMap_alookup_self (m : List (String × CssRule))
    (hm : (m.map Prod.fst).Nodup) :
    (m.map Prod.fst).filterMap (fun k => (alookup k m).map (fun v => (k, v))) = m := by
  induction m with
  | nil => simp
  | cons kv rest ih =>
    obtain ⟨k, v⟩ := kv
    simp only [List.map_cons, List.nodup_cons] at hm
    have hself : alookup k ((k, v) :: rest) = some v := by simp [alookup]
    have hcongr : (rest.map Prod.fst).filterMap
          (fun k2 => (alookup k2 ((k, v) :: rest)).map (fun v2 => (k2, v2)))
        = (rest.map Prod.fst).filterMap
          (fun k2 => (alookup k2 rest).map (fun v2 => (k2, v2))) := by
      apply List.filterMap_congr
      intro k2 hk2
      have hne : k ≠ k2 := fun he => hm.1 (he ▸ hk2)
      simp [alookup, hne]
    simp only [List.map_cons, List.filterMap_cons, hself, hcongr, ih hm.2]
    rfl

/-- C10: the lexicographic sort never drops, adds or modifies entries — its
output is a permutation of the input model, membership is preserved both
ways, and every key still maps to the same rule. -/
theorem C10_lex_sort_frame (m : List (String × CssRule))
    (hm : (m.map Prod.fst).Nodup) :
    (sort_css_by_keys m).Perm m
    ∧ (∀ kv, kv ∈ sort_css_by_keys m ↔ kv ∈ m)
    ∧ (∀ k, alookup k (sort_css_by_keys m) = alookup k m) := by
  have hfetch : sort_css_by_keys m
      = (((List.insertionSort strLe (m.map Prod.fst)).filter (fun k => !startsDotHash k))
          ++ ((List.insertionSort strLe (m.map Prod.fst)).filter (fun k => startsDotHash k))).filterMap
            (fun k => (alookup k m).map (fun v => (k, v))) := by
    rw [List.filterMap_append]
    rfl
  have hpartition : (((List.insertionSort strLe (m.map Prod.fst)).filter
        (fun k => !startsDotHash k))
      ++ ((List.insertionSort strLe (m.map Prod.fst)).filter (fun k => startsDotHash k))).Perm
        (List.insertionSort strLe (m.map Prod.fst)) := by
    have h := List.filter_append_perm (fun k => !startsDotHash k)
      (List.insertionSort strLe (m.map Prod.fst))
    have h2 : (List.insertionSort strLe (m.map Prod.fst)).filter
          (fun x => !!startsDotHash x)
        = (List.insertionSort strLe (m.map Prod.fst)).filter (fun x => startsDotHash x) := by
      apply List.filter_congr
      intro x _
      simp
    rwa [h2] at h
  have hperm : (sort_css_by_keys m).Perm m := by
    rw [hfetch]
    refine ((hpartition.filterMap _).trans ?_)
    refine (((List.perm_insertionSort strLe (m.map Prod.fst)).filterMap _).trans ?_)
    rw [filterMap_alookup_self m hm]
  refine ⟨hperm, fun kv => hperm.mem_iff, ?_⟩
  have hnodup2 : ((sort_css_by_keys m).map Prod.fst).Nodup :=
    ((hperm.map Prod.fst).nodup_iff).mpr hm
  intro k
  cases halm : alookup k m with
  | some v =>
    exact alookup_eq_of_mem hnodup2 (hperm.mem_iff.mpr (alookup_mem halm))
  | none =>
    have hk : k ∉ m.map Prod.fst := by
      intro hk
      have := (alookup_isSome_iff k m).mpr hk
      simp [halm] at this
    have hk2 : k ∉ (sort_css_by_keys m).map Prod.fst := by
      intro hk2
      exact hk (((hperm.map Prod.fst).mem_iff).mp hk2)
    cases h2 : alookup k (sort_css_by_keys m) with
    | none => rfl
    | some v2 =>
      exact absurd ((alookup_isSome_iff k _).mp (by simp [h2])) hk2

/-- C10 witness at a concrete two-entry model. -/
theorem C10_witness :
    (sort_css_by_keys [("b", ⟨"", []⟩), (".a", ⟨"/*x*/", ["p: q"]⟩)]).Perm
      [("b", ⟨"", []⟩), (".a", ⟨"/*x*/", ["p: q"]⟩)] :=
  (C10_lex_sort_frame _ (by decide)).1

/-- C5 witness at a concrete model: the key order is as stated and the
id/class key at position 1 comes after the tag key at position 0. -/
theorem C5_witness :
    ((sort_css_by_keys [(".a", ⟨"", []⟩), ("b", ⟨"", []⟩)]).map Prod.fst
      = List.insertionSort strLe
          (([(".a", (⟨"", []⟩ : CssRule)), ("b", ⟨"", []⟩)].map Prod.fst).filter
            (fun k => !startsDotHash k))
        ++ List.insertionSort strLe
          (([(".a", (⟨"", []⟩ : CssRule)), ("b", ⟨"", []⟩)].map Prod.fst).filter
            (fun k => startsDotHash k)))
    ∧ (0 : Nat) < 1 :=
  ⟨(C5_lex_key_order _).1,
   (C5_lex_key_order [(".a", ⟨"", []⟩), ("b", ⟨"", []⟩)]).2 1 0
     (by decide) (by decide) (by decide) (by decide)⟩

/-! ## C6: property lists are alphabetically sorted -/

theorem mem_format_sorted {d : List (String × RawRule)} {kv : String × CssRule}
    (h : kv ∈ format_css_dict d) : List.Sorted strLe kv.2.props := by
  unfold format_css_dict at h
  obtain ⟨kr, _, hkr⟩ := List.mem_map.mp h
  rw [← hkr]
  exact List.sorted_insertionSort strLe kr.2.props

theorem mem_sort_css_by_keys {m : List (String × CssRule)} {kv : String × CssRule}
    (h : kv ∈ sort_css_by_keys m) : kv ∈ m := by
  unfold sort_css_by_keys at h
  rcases List.mem_append.mp h with h1 | h1 <;>
  · obtain ⟨k, _, hk⟩ := List.mem_filterMap.mp h1
    cases halk : alookup k m with
    | none =>
      rw [halk] at hk
      exact Option.noConfusion hk
    | some v =>
      rw [halk] at hk
      injection hk with hk
      rw [← hk]
      exact alookup_mem halk

theorem mem_placePass {m : List (String × CssRule)} {e : String}
    {res res2 : List (String × CssRule)} {kv : String × CssRule}
    (h : placePass m e res = some res2) (hkv : kv ∈ res2) : kv ∈ res ∨ kv ∈ m := by
  induction m generalizing res with
  | nil =>
    simp only [placePass, Option.some_inj] at h
    exact Or.inl (h ▸ hkv)
  | cons hd rest ih =>
    obtain ⟨css, value⟩ := hd
    simp only [placePass] at h
    cases htok : leadingToken css with
    | none =>
      rw [htok] at h
      exact Option.noConfusion h
    | some tok =>
      rw [htok] at h
      rcases ih h with hin | hin
      · by_cases hc : tok = e ∧ alookup css res = none
        · rw [if_pos hc] at hin
          rcases List.mem_append.mp hin with h2 | h2
          · exact Or.inl h2
          · right
            simp only [List.mem_singleton] at h2
            exact h2 ▸ List.mem_cons_self _ _
        · rw [if_neg hc] at hin
          exact Or.inl hin
      · exact Or.inr (List.mem_cons_of_mem _ hin)

theorem mem_sortHtmlGo {m : List (String × CssRule)} {es : List String}
    {res out : List (String × CssRule)} {kv : String × CssRule}
    (h : sortHtmlGo m es res = some out) (hkv : kv ∈ out) : kv ∈ res ∨ kv ∈ m := by
  induction es generalizing res with
  | nil =>
    simp only [sortHtmlGo, Option.some_inj] at h
    exact Or.inl (h ▸ hkv)
  | cons e es ih =>
    simp only [sortHtmlGo] at h
    cases hp : placePass m e res with
    | none =>
      rw [hp] at h
      exact Option.noConfusion h
    | some r1 =>
      rw [hp] at h
      have h2 : sortHtmlGo m es r1 = some out := h
      rcases ih h2 with hin | hin
      · exact mem_placePass hp hin
      · exact Or.inr hin

/-- C6: every property list in the model produced by parsing is sorted by the
code-point lexicographic string order, and this remains true after either
downstream sort strategy, since both only reorder (or drop) whole entries. -/
theorem C6_props_sorted :
    (∀ (rules : List CssParsedRule) (kv : String × CssRule),
      kv ∈ format_css_dict (css_to_dict rules) → List.Sorted strLe kv.2.props)
    ∧ (∀ (rules : List CssParsedRule) (kv : String × CssRule),
      kv ∈ sort_css_by_keys (format_css_dict (css_to_dict rules)) →
        List.Sorted strLe kv.2.props)
    ∧ (∀ (rules : List CssParsedRule) (order : List String)
        (out : List (String × CssRule)) (kv : String × CssRule),
      sort_css_by_html (format_css_dict (css_to_dict rules)) order = some out →
        kv ∈ out → List.Sorted strLe kv.2.props) := by
  refine ⟨fun rules kv h => mem_format_sorted h,
    fun rules kv h => mem_format_sorted (mem_sort_css_by_keys h),
    fun rules order out kv h hkv => ?_⟩
  rcases mem_sortHtmlGo h hkv with hin | hin
  · exact absurd hin (List.not_mem_nil kv)
  · exact mem_format_sorted hin

/-- C6 witness: the parse of `a { b: c; a: d }` stores the alphabetically
sorted property list, and the sortedness statement applies to it. -/
theorem C6_witness :
    List.Sorted strLe
      (("a", (⟨"", ["a: d", "b: c"]⟩ : CssRule)) : String × CssRule).2.props :=
  C6_props_sorted.1 [CssParsedRule.style "a" "b: c; a: d"] ("a", ⟨"", ["a: d", "b: c"]⟩)
    (by decide)

/-! ## C3: characterization of the HTML-order sort -/

theorem entry_unique {m : List (String × CssRule)} {kv kv2 : String × CssRule}
    (hnd : (m.map Prod.fst).Nodup) (h1 : kv ∈ m) (h2 : kv2 ∈ m) (he : kv.1 = kv2.1) :
    kv = kv2 := by
  induction m with
  | nil => simp at h1
  | cons hd rest ih =>
    simp only [List.map_cons, List.nodup_cons] at hnd
    rcases List.mem_cons.mp h1 with hm1 | hm1 <;> rcases List.mem_cons.mp h2 with hm2 | hm2
    · rw [hm1, hm2]
    · exfalso
      apply hnd.1
      rw [hm1] at he
      exact List.mem_map.mpr ⟨kv2, hm2, he.symm⟩
    · exfalso
      apply hnd.1
      rw [hm2] at he
      exact List.mem_map.mpr ⟨kv, hm1, he⟩
    · exact ih hnd.2 hm1 hm2

theorem placePass_eq : ∀ (m : List (String × CssRule)) (e : String)
    (res : List (String × CssRule)),
    (∀ kv ∈ m, (leadingToken kv.1).isSome = true) →
    ((m.map Prod.fst).Nodup) →
    (∀ kv ∈ m, leadingToken kv.1 = some e → alookup kv.1 res = none) →
    placePass m e res
      = some (res ++ m.filter (fun kv => decide (leadingToken kv.1 = some e))) := by
  intro m e
  induction m with
  | nil => intro res _ _ _; simp [placePass]
  | cons hd rest ih =>
    intro res hgood hnd hres
    obtain ⟨css, value⟩ := hd
    obtain ⟨tok, htok⟩ :=
      Option.isSome_iff_exists.mp (hgood _ (List.mem_cons_self _ _))
    simp only [List.map_cons, List.nodup_cons] at hnd
    have hgood2 : ∀ kv ∈ rest, (leadingToken kv.1).isSome = true :=
      fun kv hkv => hgood kv (List.mem_cons_of_mem _ hkv)
    simp only [placePass, htok]
    by_cases he : tok = e
    · subst he
      have hal : alookup css res = none := hres _ (List.mem_cons_self _ _) htok
      rw [if_pos ⟨rfl, hal⟩]
      have hres2 : ∀ kv ∈ rest, leadingToken kv.1 = some tok →
          alookup kv.1 (res ++ [(css, value)]) = none := by
        intro kv hkv htk
        rw [alookup_append, hres kv (List.mem_cons_of_mem _ hkv) htk]
        have hne : css ≠ kv.1 := by
          intro hcon
          exact hnd.1 (hcon ▸ List.mem_map.mpr ⟨kv, hkv, rfl⟩)
        simp [alookup, hne]
      rw [ih (res ++ [(css, value)]) hgood2 hnd.2 hres2]
      simp only [List.filter_cons]
      rw [if_pos (by simp [htok])]
      simp [List.append_assoc]
    · rw [if_neg (fun hc => he hc.1)]
      have hres2 : ∀ kv ∈ rest, leadingToken kv.1 = some e → alookup kv.1 res = none :=
        fun kv hkv htk => hres kv (List.mem_cons_of_mem _ hkv) htk
      rw [ih res hgood2 hnd.2 hres2]
      simp only [List.filter_cons]
      rw [if_neg (by simp [htok, he])]

theorem flattenPlaced_keys_token {m : List (String × CssRule)} {ps : List String}
    {k : String} (h : k ∈ (flattenPlaced m ps).map Prod.fst) :
    ∃ e ∈ ps, ∃ kv ∈ m, kv.1 = k ∧ leadingToken kv.1 = some e := by
  obtain ⟨kv, hkv, hk⟩ := List.mem_map.mp h
  simp only [flattenPlaced, List.mem_flatMap] at hkv
  obtain ⟨e, he, hkv2⟩ := hkv
  have := List.mem_filter.mp hkv2
  exact ⟨e, he, kv, this.1, hk, of_decide_eq_true this.2⟩

theorem sortHtmlGo_eq : ∀ (m : List (String × CssRule)) (es processed : List String),
    (∀ kv ∈ m, (leadingToken kv.1).isSome = true) →
    ((m.map Prod.fst).Nodup) →
    ((processed ++ es).Nodup) →
    sortHtmlGo m es (flattenPlaced m processed)
      = some (flattenPlaced m (processed ++ es)) := by
  intro m es
  induction es with
  | nil => intro processed _ _ _; simp [sortHtmlGo]
  | cons e es ih =>
    intro processed hgood hnd hndpe
    have hce : e ∉ processed := by
      intro hmem
      rcases (List.nodup_append.mp hndpe) with ⟨_, _, hdisj⟩
      exact hdisj hmem (List.mem_cons_self _ _)
    have hres : ∀ kv ∈ m, leadingToken kv.1 = some e →
        alookup kv.1 (flattenPlaced m processed) = none := by
      intro kv hkv htk
      cases hal : alookup kv.1 (flattenPlaced m processed) with
      | none => rfl
      | some v =>
        exfalso
        have hkmem : kv.1 ∈ (flattenPlaced m processed).map Prod.fst :=
          (alookup_isSome_iff _ _).mp (by simp [hal])
        obtain ⟨e2, he2, kv2, hkv2, hfst, htok2⟩ := flattenPlaced_keys_token hkmem
        have : kv2 = kv := entry_unique hnd hkv2 hkv hfst
        rw [this, htk] at htok2
        injection htok2 with h2
        exact hce (h2 ▸ he2)
    simp only [sortHtmlGo]
    rw [placePass_eq m e _ hgood hnd hres]
    have hX : flattenPlaced m processed
          ++ m.filter (fun kv => decide (leadingToken kv.1 = some e))
        = flattenPlaced m (processed ++ [e]) := by
      simp [flattenPlaced, List.flatMap_append]
    have hnd2 : ((processed ++ [e]) ++ es).Nodup := by
      rw [List.append_assoc]
      simpa using hndpe
    have hrec := ih (processed ++ [e]) hgood hnd hnd2
    rw [List.append_assoc] at hrec
    simp only [List.singleton_append] at hrec
    have : sortHtmlGo m es (flattenPlaced m processed
          ++ m.filter (fun kv => decide (leadingToken kv.1 = some e)))
        = some (flattenPlaced m (processed ++ e :: es)) := by
      rw [hX]
      exact hrec
    exact this

/-- C3: under the data-model invariants (unique model keys, duplicate-free
identifier sequence, every key has a leading token), the HTML-order sort
outputs, for each identifier in sequence order, exactly the model entries
whose leading simple token equals that identifier, in their original
insertion order; keys matching no identifier are absent. -/
theorem C3_html_order_sort (m : List (String × CssRule)) (order : List String)
    (hgood : ∀ kv ∈ m, (leadingToken kv.1).isSome = true)
    (hnd : (m.map Prod.fst).Nodup) (ho : order.Nodup) :
    sort_css_by_html m order = some (flattenPlaced m order)
    ∧ ∀ kv, kv ∈ flattenPlaced m order
        ↔ kv ∈ m ∧ ∃ e ∈ order, leadingToken kv.1 = some e := by
  constructor
  · have h := sortHtmlGo_eq m order [] hgood hnd (by simpa using ho)
    simpa [sort_css_by_html, flattenPlaced] using h
  · intro kv
    simp only [flattenPlaced, List.mem_flatMap, List.mem_filter, decide_eq_true_eq]
    constructor
    · rintro ⟨e, he, hkv, htok⟩
      exact ⟨hkv, e, he, htok⟩
    · rintro ⟨hkv, e, he, htok⟩
      exact ⟨e, he, hkv, htok⟩

/-- C3 witness at a concrete model and identifier sequence: `.a` and `.a x`
share the leading token `.a` and keep insertion order, `b` follows, and the
order of output is the sequence order. -/
theorem C3_witness :
    sort_css_by_html
        [(".a", ⟨"", []⟩), ("b", ⟨"", []⟩), (".a x", ⟨"", []⟩)] [".a", "b"]
      = some (flattenPlaced
          [(".a", ⟨"", []⟩), ("b", ⟨"", []⟩), (".a x", ⟨"", []⟩)] [".a", "b"]) :=
  (C3_html_order_sort _ _ (by decide) (by decide) (by decide)).1

/-! ## C9: totality over the documented domain -/

theorem placePass_isSome : ∀ (m : List (String × CssRule)) (e : String)
    (res : List (String × CssRule)),
    (∀ kv ∈ m, (leadingToken kv.1).isSome = true) →
    (placePass m e res).isSome = true := by
  intro m e
  induction m with
  | nil => intro res _; simp [placePass]
  | cons hd rest ih =>
    intro res hgood
    obtain ⟨css, value⟩ := hd
    obtain ⟨tok, htok⟩ :=
      Option.isSome_iff_exists.mp (hgood _ (List.mem_cons_self _ _))
    simp only [placePass, htok]
    exact ih _ (fun kv hkv => hgood kv (List.mem_cons_of_mem _ hkv))

theorem sortHtmlGo_isSome : ∀ (m : List (String × CssRule)) (es : List String)
    (res : List (String × CssRule)),
    (∀ kv ∈ m, (leadingToken kv.1).isSome = true) →
    (sortHtmlGo m es res).isSome = true := by
  intro m es
  induction es with
  | nil => intro res _; simp [sortHtmlGo]
  | cons e es ih =>
    intro res hgood
    simp only [sortHtmlGo]
    cases hp : placePass m e res with
    | none =>
      exfalso
      have := placePass_isSome m e res hgood
      simp [hp] at this
    | some r1 =>
      have h2 : (sortHtmlGo m es r1).isSome = true := ih r1 hgood
      simpa using h2

theorem wfList_append (a b : List NDict) :
    wfList (a ++ b) = (wfList a && wfList b) := by
  induction a with
  | nil => simp [wfList]
  | cons d rest ih => simp [wfList, ih, Bool.and_assoc]

theorem wfGroups_dictAppend {d : List (String × List NDict)} {k : String} {c : NDict}
    (hd : wfGroups d = true) (hc : wfDict c = true) :
    wfGroups (dictAppend d k c) = true := by
  induction d with
  | nil => simp [dictAppend, wfGroups, wfList, hc]
  | cons hd2 rest ih =>
    obtain ⟨k2, l⟩ := hd2
    simp only [wfGroups, Bool.and_eq_true] at hd
    by_cases hk : k2 = k
    · simp [dictAppend, hk, wfGroups, wfList_append, wfList, hd.1.2, hd.2, hc]
    · simp only [dictAppend, hk, if_false]
      simp [wfGroups, hd.1.1, hd.1.2, ih hd.2]

theorem wfGroups_recurse : ∀ (nodes : List HtmlNode) (d : List (String × List NDict)),
    wfGroups d = true → wfGroups (recurse nodes d) = true := by
  intro nodes d
  induction nodes, d using recurse.induct with
  | case1 collector => intro h; simpa [recurse] using h
  | case2 s rest collector ih => intro h; simpa [recurse] using ih h
  | case3 name a children rest collector ih1 ih2 =>
    intro h
    simp only [recurse]
    exact ih2 (wfGroups_dictAppend h (by simpa [wfDict, wfGroups] using ih1 rfl))

/-! ## C8: first-occurrence de-duplication -/

theorem dedup_foldl_eq : ∀ (l acc : List String),
    l.foldl (fun acc x => if x ∈ acc then acc else acc ++ [x]) acc
      = acc ++ firstDedup (l.filter (fun x => decide (x ∉ acc))) := by
  intro l
  induction l with
  | nil => intro acc; simp [firstDedup]
  | cons x xs ih =>
    intro acc
    simp only [List.foldl_cons]
    by_cases hx : x ∈ acc
    · rw [if_pos hx, ih]
      congr 2
      simp [List.filter_cons, hx]
    · rw [if_neg hx, ih]
      have hff : xs.filter (fun y => decide (y ∉ acc ++ [x]))
          = (xs.filter (fun y => decide (y ∉ acc))).filter (fun y => y != x) := by
        rw [List.filter_filter]
        apply List.filter_congr
        intro y _
        by_cases h1 : y = x <;> by_cases h2 : y ∈ acc <;>
          simp [h1, h2, List.mem_append]
      rw [hff]
      have hcons : (x :: xs).filter (fun y => decide (y ∉ acc))
          = x :: xs.filter (fun y => decide (y ∉ acc)) := by
        simp [List.filter_cons, hx]
      rw [hcons]
      rw [show firstDedup (x :: xs.filter (fun y => decide (y ∉ acc)))
          = x :: firstDedup ((xs.filter (fun y => decide (y ∉ acc))).filter
              (fun y => y != x)) from by rw [firstDedup]]
      simp [List.append_assoc]

theorem mem_firstDedup : ∀ (l : List String) (y : String), y ∈ firstDedup l → y ∈ l := by
  intro l
  induction l using firstDedup.induct with
  | case1 => intro y hy; simp [firstDedup] at hy
  | case2 x xs ih =>
    intro y hy
    rw [firstDedup] at hy
    rcases List.mem_cons.mp hy with hy | hy
    · exact hy ▸ List.mem_cons_self _ _
    · exact List.mem_cons_of_mem _ (List.mem_filter.mp (ih y hy)).1

theorem nodup_firstDedup : ∀ (l : List String), (firstDedup l).Nodup := by
  intro l
  induction l using firstDedup.induct with
  | case1 => simp [firstDedup]
  | case2 x xs ih =>
    rw [firstDedup]
    refine List.nodup_cons.mpr ⟨?_, ih⟩
    intro hx
    have := (List.mem_filter.mp (mem_firstDedup _ _ hx)).2
    simp at this

theorem dedupKeepFirst_eq_firstDedup (l : List String) :
    dedupKeepFirst l = firstDedup l := by
  have h := dedup_foldl_eq l []
  have h2 : l.filter (fun x => decide (x ∉ ([] : List String))) = l := by
    rw [List.filter_eq_self]
    intro a _
    simp
  rw [h2] at h
  simpa [dedupKeepFirst] using h

/-- C8: the identifier sequence produced by `get_html_element_order` has no
duplicate entries, and equals the specification-side first-occurrence
collapse of the raw emitted traversal: the first occurrence of each
identifier fixes its position and later repeats are dropped without
reordering the rest. -/
theorem C8_dedup_first_occurrence (nodes : List HtmlNode) :
    (get_html_element_order nodes).Nodup
    ∧ get_html_element_order nodes = firstDedup (identsEntry (recurse nodes [])) := by
  have h : get_html_element_order nodes
      = firstDedup (identsEntry (recurse nodes [])) := by
    unfold get_html_element_order
    exact dedupKeepFirst_eq_firstDedup _
  exact ⟨h ▸ nodup_firstDedup _, h⟩

/-! ## C1: merging semantics of the parse pipeline -/

theorem str_append_empty (s : String) : s ++ "" = s := by
  cases s with
  | mk data => exact congrArg String.mk (List.append_nil data)

theorem fmtInsert_keys (acc : List (String × CssRule)) (c : String) (ps : List String)
    (sel : String) :
    (fmtInsert acc c ps sel).map Prod.fst
      = if sel ∈ acc.map Prod.fst then acc.map Prod.fst else acc.map Prod.fst ++ [sel] := by
  induction acc with
  | nil => simp [fmtInsert]
  | cons hd rest ih =>
    obtain ⟨k, r⟩ := hd
    by_cases hk : k = sel
    · simp [fmtInsert, hk]
    · simp only [fmtInsert, hk, if_false, List.map_cons, ih]
      by_cases hmem : sel ∈ rest.map Prod.fst
      · simp [hmem, hk, Ne.symm hk]
      · simp [hmem, hk, Ne.symm hk]

theorem fmtInsert_alookup (acc : List (String × CssRule)) (c : String)
    (ps : List String) (sel s : String) :
    alookup s (fmtInsert acc c ps sel)
      = if s = sel then
          (match alookup sel acc with
           | some r => some ⟨r.comment ++ c, r.props ++ ps⟩
           | none => some ⟨c, ps⟩)
        else alookup s acc := by
  induction acc with
  | nil =>
    by_cases hs : s = sel
    · simp [fmtInsert, alookup, hs]
    · simp [fmtInsert, alookup, hs, Ne.symm hs]
  | cons hd rest ih =>
    obtain ⟨k, r⟩ := hd
    by_cases hk : k = sel
    · subst hk
      by_cases hs : s = k
      · simp [fmtInsert, alookup, hs]
      · simp [fmtInsert, alookup, hs, Ne.symm hs]
    · by_cases hsk : k = s
      · have hs : ¬ s = sel := fun h => hk (hsk.trans h)
        simp [fmtInsert, hk, alookup, hsk, hs]
      · simp [fmtInsert, hk, alookup, hsk, ih]

theorem mergeTriples_append (a b : List (String × String × List String))
    (acc : List (String × CssRule)) :
    mergeTriples (a ++ b) acc = mergeTriples b (mergeTriples a acc) := by
  induction a generalizing acc with
  | nil => simp [mergeTriples]
  | cons t a ih => simp [mergeTriples, ih]

theorem comsFor_cons (s : String) (t : String × String × List String)
    (ts : List (String × String × List String)) :
    comsFor s (t :: ts) = if t.1 = s then t.2.1 ++ comsFor s ts else comsFor s ts := rfl

theorem propsFor_cons (s : String) (t : String × String × List String)
    (ts : List (String × String × List String)) :
    propsFor s (t :: ts) = if t.1 = s then t.2.2 ++ propsFor s ts else propsFor s ts := rfl

theorem mergeTriples_alookup : ∀ (ts : List (String × String × List String))
    (acc : List (String × CssRule)) (s : String),
    alookup s (mergeTriples ts acc)
      = match alookup s acc with
        | some r => some ⟨r.comment ++ comsFor s ts, r.props ++ propsFor s ts⟩
        | none =>
          if s ∈ ts.map (fun t => t.1) then some ⟨comsFor s ts, propsFor s ts⟩
          else none := by
  intro ts
  induction ts with
  | nil =>
    intro acc s
    cases h : alookup s acc with
    | none => simp [mergeTriples, h, comsFor, propsFor]
    | some r => simp [mergeTriples, h, comsFor, propsFor, str_append_empty]
  | cons t ts ih =>
    intro acc s
    obtain ⟨t1, tc, tp⟩ := t
    simp only [mergeTriples]
    rw [ih, fmtInsert_alookup]
    by_cases hs : s = t1
    · subst hs
      simp only [comsFor_cons, propsFor_cons, if_pos rfl]
      cases halc : alookup s acc with
      | some r => simp [halc, String.append_assoc, List.append_assoc]
      | none => simp [halc]
    · have hts : ¬ t1 = s := Ne.symm hs
      simp only [comsFor_cons, propsFor_cons, if_neg hts, if_neg hs]
      cases halc : alookup s acc with
      | some r => simp [halc]
      | none =>
        simp only [halc]
        by_cases hmem : s ∈ List.map (fun t => t.1) ts
        · simp [hmem, List.mem_cons]
        · simp [hmem, List.mem_cons, hs]

theorem mergeTriples_keys : ∀ (ts : List (String × String × List String))
    (acc : List (String × CssRule)),
    (mergeTriples ts acc).map Prod.fst
      = (ts.map (fun t => t.1)).foldl
          (fun ks s => if s ∈ ks then ks else ks ++ [s]) (acc.map Prod.fst) := by
  intro ts
  induction ts with
  | nil => intro acc; simp [mergeTriples]
  | cons t ts ih =>
    intro acc
    simp only [mergeTriples, List.map_cons, List.foldl_cons, ih, fmtInsert_keys]

theorem fmtFold_eq_mergeTriples : ∀ (sels : List String) (c : String)
    (ps : List String) (acc : List (String × CssRule)),
    sels.foldl (fun a sel => fmtInsert a c ps sel) acc
      = mergeTriples (sels.map (fun s => (s, c, ps))) acc := by
  intro sels
  induction sels with
  | nil => intro c ps acc; simp [mergeTriples]
  | cons sel sels ih => intro c ps acc; simp [mergeTriples, ih]

theorem foldl_fmtEntry_eq : ∀ (d : List (String × RawRule))
    (acc : List (String × CssRule)),
    d.foldl fmtEntry acc = mergeTriples (encounters d) acc := by
  intro d
  induction d with
  | nil => intro acc; simp [encounters, mergeTriples]
  | cons kv d ih =>
    intro acc
    have henc : encounters (kv :: d)
        = ((splitOnChar ',' kv.1).map trimStr).map
            (fun s => (s, kv.2.comment, splitProps kv.2.props)) ++ encounters d := by
      simp [encounters]
    rw [henc, mergeTriples_append, List.foldl_cons, ih]
    congr 1
    exact fmtFold_eq_mergeTriples _ _ _ acc

theorem alookup_map_value {α β : Type} (s : String) (l : List (String × α)) (g : α → β) :
    alookup s (l.map (fun kr => (kr.1, g kr.2))) = (alookup s l).map g := by
  induction l with
  | nil => simp [alookup]
  | cons kv rest ih =>
    by_cases h : kv.1 = s
    · simp [alookup, h]
    · simp [alookup, h, ih]

theorem dictSet_keys (d : List (String × RawRule)) (k : String) (v : RawRule) :
    (dictSet d k v).map Prod.fst
      = if k ∈ d.map Prod.fst then d.map Prod.fst else d.map Prod.fst ++ [k] := by
  induction d with
  | nil => simp [dictSet]
  | cons kv rest ih =>
    obtain ⟨k2, v2⟩ := kv
    by_cases hk : k2 = k
    · simp [dictSet, hk]
    · simp only [dictSet, hk, if_false, List.map_cons, ih]
      by_cases hmem : k ∈ rest.map Prod.fst
      · simp [hmem, hk, Ne.symm hk]
      · simp [hmem, hk, Ne.symm hk]

theorem cssFold_keys : ∀ (rules : List CssParsedRule) (p : String)
    (d : List (String × RawRule)),
    ((rules.foldl cssStep (p, d)).2).map Prod.fst
      = (styleSelectors rules).foldl
          (fun ks s => if s ∈ ks then ks else ks ++ [s]) (d.map Prod.fst) := by
  intro rules
  induction rules with
  | nil => intro p d; simp [styleSelectors]
  | cons r rules ih =>
    intro p d
    cases r with
    | comment t => simpa [styleSelectors, cssStep] using ih t d
    | style sel txt =>
      simp only [List.foldl_cons, cssStep]
      rw [ih "" (dictSet d sel ⟨p, txt⟩)]
      simp [styleSelectors, dictSet_keys]

theorem cssFold_preserve : ∀ (rules : List CssParsedRule) (p : String)
    (d : List (String × RawRule)) (sel : String),
    (∀ txt2, CssParsedRule.style sel txt2 ∉ rules) →
    alookup sel ((rules.foldl cssStep (p, d)).2) = alookup sel d := by
  intro rules
  induction rules with
  | nil => intro p d sel _; rfl
  | cons r rules ih =>
    intro p d sel hno
    cases r with
    | comment t =>
      exact (ih t d sel (fun txt2 hmem => hno txt2 (List.mem_cons_of_mem _ hmem)))
    | style s2 t2 =>
      have hne : sel ≠ s2 := by
        intro he
        exact hno t2 (he ▸ List.mem_cons_self _ _)
      simp only [List.foldl_cons, cssStep]
      rw [ih "" _ sel (fun txt2 hmem => hno txt2 (List.mem_cons_of_mem _ hmem))]
      exact alookup_dictSet_ne d _ hne

/-- C1 counterexample: two style rule blocks with the same selector text `a`
are not concatenated — `css_to_dict` overwrites, so the model keeps only the
last block's declarations, not `["color: red", "margin: 0"]`. -/
theorem C1_counterexample :
    alookup "a" (format_css_dict (css_to_dict
        [CssParsedRule.style "a" "color: red", CssParsedRule.style "a" "margin: 0"]))
      = some ⟨"", ["margin: 0"]⟩
    ∧ (some (⟨"", ["margin: 0"]⟩ : CssRule)
        ≠ some ⟨"", ["color: red", "margin: 0"]⟩) := by
  refine ⟨by decide, by decide⟩

/-- C1 (amended): keys of `css_to_dict` are the style-rule selector texts in
first-encounter order, but a repeated identical selector text is overwritten —
the entry of a selector group is the last style rule carrying it together
with that rule's pending comment.  Concatenation in encounter order does hold
at the comma-splitting stage: `format_css_dict` maps each simple selector to
the concatenation of the comments and of the split declaration lists of all
its encounters in order (then sorts the declarations), and its keys are in
first-encounter order. -/
theorem C1_merge_amended :
    (∀ rules : List CssParsedRule,
      (css_to_dict rules).map Prod.fst = dedupKeepFirst (styleSelectors rules))
    ∧ (∀ (l : List CssParsedRule) (sel txt : String) (r : List CssParsedRule),
        (∀ txt2, CssParsedRule.style sel txt2 ∉ r) →
        alookup sel (css_to_dict (l ++ CssParsedRule.style sel txt :: r))
          = some ⟨(cssFold l).1, txt⟩)
    ∧ (∀ d : List (String × RawRule),
        (format_css_dict d).map Prod.fst
          = dedupKeepFirst ((encounters d).map (fun t => t.1)))
    ∧ (∀ (d : List (String × RawRule)) (s : String),
        alookup s (format_css_dict d)
          = if s ∈ (encounters d).map (fun t => t.1)
            then some ⟨comsFor s (encounters d),
                List.insertionSort strLe (propsFor s (encounters d))⟩
            else none) := by
  refine ⟨?_, ?_, ?_, ?_⟩
  · intro rules
    have h := cssFold_keys rules "" []
    simpa [css_to_dict, cssFold, dedupKeepFirst] using h
  · intro l sel txt r hno
    have hsplit : css_to_dict (l ++ CssParsedRule.style sel txt :: r)
        = (r.foldl cssStep ("", dictSet (cssFold l).2 sel ⟨(cssFold l).1, txt⟩)).2 := by
      simp only [css_to_dict, cssFold, List.foldl_append, List.foldl_cons]
      rfl
    rw [hsplit, cssFold_preserve r _ _ sel hno, alookup_dictSet_self]
  · intro d
    unfold format_css_dict
    have hmap : (((d.foldl fmtEntry []).map
          (fun kr => (kr.1,
            (⟨kr.2.comment, List.insertionSort strLe kr.2.props⟩ : CssRule)))).map Prod.fst)
        = (d.foldl fmtEntry []).map Prod.fst := by
      simp [List.map_map, Function.comp]
    rw [hmap, foldl_fmtEntry_eq, mergeTriples_keys]
    simp [dedupKeepFirst]
  · intro d s
    have h1 : alookup s (format_css_dict d)
        = (alookup s (d.foldl fmtEntry [])).map
            (fun r : CssRule =>
              (⟨r.comment, List.insertionSort strLe r.props⟩ : CssRule)) :=
      alookup_map_value s (d.foldl fmtEntry [])
        (fun r : CssRule => (⟨r.comment, List.insertionSort strLe r.props⟩ : CssRule))
    rw [h1, foldl_fmtEntry_eq, mergeTriples_alookup]
    simp only [alookup]
    by_cases hmem : s ∈ (encounters d).map (fun t => t.1)
    · simp [hmem]
    · simp [hmem]

/-- C1 witness: the comma-group merge at the spec's own test input
`a, b { color: red }` then `a { margin: 0 }` (distinct group texts), applied
through the amended last-wins conjunct at a concrete rule split. -/
theorem C1_witness :
    alookup "a" (css_to_dict ([CssParsedRule.comment "/* n */"]
        ++ CssParsedRule.style "a" "margin: 0" :: [CssParsedRule.style "b" "x: y"]))
      = some ⟨(cssFold [CssParsedRule.comment "/* n */"]).1, "margin: 0"⟩ :=
  C1_merge_amended.2.1 [CssParsedRule.comment "/* n */"] "a" "margin: 0"
    [CssParsedRule.style "b" "x: y"]
    (by intro txt2 h; simp at h)

/-! ## C2: the flattener's emission order -/

/-- C2 counterexample: on `<div id="x"></div>` the flattener emits the tag
name before the id token (`["div", "#x"]`), while the claimed per-element
order (id, classes, tag, children) would give `["#x", "div"]`. -/
theorem C2_counterexample :
    emitGs (recurse [HtmlNode.elem "div" ⟨some "x", [], false⟩ []] []) = ["div", "#x"]
    ∧ claimEmit [HtmlNode.elem "div" ⟨some "x", [], false⟩ []] = ["#x", "div"]
    ∧ (["div", "#x"] : List String) ≠ ["#x", "div"] := by
  refine ⟨?_, ?_, by decide⟩
  · simp only [recurse, dictAppend, attrsPresent]
    decide
  · simp only [claimEmit, attrTokens]
    decide

theorem elemsNamed_cons_text (t s : String) (rest : List HtmlNode) :
    elemsNamed t (HtmlNode.text s :: rest) = elemsNamed t rest := by
  simp [elemsNamed, tagName]

theorem elemsNamed_cons_elem_eq (n : String) (a : Attrs) (ch rest : List HtmlNode) :
    elemsNamed n (HtmlNode.elem n a ch :: rest)
      = HtmlNode.elem n a ch :: elemsNamed n rest := by
  simp [elemsNamed, tagName]

theorem elemsNamed_cons_elem_ne {t n : String} (a : Attrs) (ch rest : List HtmlNode)
    (h : t ≠ n) :
    elemsNamed t (HtmlNode.elem n a ch :: rest) = elemsNamed t rest := by
  simp [elemsNamed, tagName, Ne.symm h]

theorem tagsOf_cons_text (s : String) (rest : List HtmlNode) :
    tagsOf (HtmlNode.text s :: rest) = tagsOf rest := by
  simp [tagsOf, tagName]

theorem tagsOf_cons_elem (n : String) (a : Attrs) (ch rest : List HtmlNode) :
    tagsOf (HtmlNode.elem n a ch :: rest) = n :: tagsOf rest := by
  simp [tagsOf, tagName]

theorem dictAppend_not_mem {G : List (String × List NDict)} {n : String} (c : NDict)
    (h : n ∉ G.map Prod.fst) : dictAppend G n c = G ++ [(n, [c])] := by
  induction G with
  | nil => simp [dictAppend]
  | cons hd rest ih =>
    obtain ⟨k, l⟩ := hd
    simp only [List.map_cons, List.mem_cons] at h
    push_neg at h
    simp [dictAppend, Ne.symm h.1, ih h.2]

theorem dictAppend_mem {G : List (String × List NDict)} {n : String} (c : NDict)
    (hnd : (G.map Prod.fst).Nodup) (h : n ∈ G.map Prod.fst) :
    dictAppend G n c
      = G.map (fun tl => if tl.1 = n then (tl.1, tl.2 ++ [c]) else tl) := by
  induction G with
  | nil => simp at h
  | cons hd rest ih =>
    obtain ⟨k, l⟩ := hd
    simp only [List.map_cons, List.nodup_cons] at hnd
    by_cases hk : k = n
    · subst hk
      have hrest : rest.map (fun tl => if tl.1 = k then (tl.1, tl.2 ++ [c]) else tl)
          = rest := by
        have hpt : ∀ tl ∈ rest,
            (if tl.1 = k then (tl.1, tl.2 ++ [c]) else tl) = id tl := by
          intro tl htl
          have hne : tl.1 ≠ k := fun he =>
            hnd.1 (he ▸ List.mem_map.mpr ⟨tl, htl, rfl⟩)
          simp [hne]
        exact (List.map_congr_left hpt).trans (List.map_id rest)
      simp [dictAppend, hrest]
    · have hmem : n ∈ rest.map Prod.fst := by
        rcases List.mem_cons.mp h with h2 | h2
        · exact absurd h2.symm hk
        · exact h2
      simp [dictAppend, hk, ih hnd.2 hmem]

theorem filter_not_mem_concat (l : List String) (ks : List String) (n : String) :
    (l.filter (fun t => decide (t ∉ ks))).filter (fun t => t != n)
      = l.filter (fun t => decide (t ∉ ks ++ [n])) := by
  rw [List.filter_filter]
  apply List.filter_congr
  intro t _
  by_cases h1 : t = n <;> by_cases h2 : t ∈ ks <;> simp [h1, h2, List.mem_append]

theorem recurse_groups : ∀ (nodes : List HtmlNode) (G : List (String × List NDict)),
    (G.map Prod.fst).Nodup →
    recurse nodes G
      = G.map (fun tl => (tl.1, tl.2 ++ (elemsNamed tl.1 nodes).map toDict))
        ++ (firstDedup ((tagsOf nodes).filter
            (fun t => decide (t ∉ G.map Prod.fst)))).map
              (fun t => (t, (elemsNamed t nodes).map toDict)) := by
  intro nodes
  induction nodes with
  | nil =>
    intro G hnd
    have hpt : ∀ tl ∈ G,
        (tl.1, tl.2 ++ (elemsNamed tl.1 []).map toDict) = id tl := by
      intro tl _
      simp [elemsNamed]
    rw [show recurse [] G = G from by simp [recurse],
      (List.map_congr_left hpt).trans (List.map_id G)]
    simp [tagsOf, firstDedup]
  | cons e rest ih =>
    cases e with
    | text s =>
      intro G hnd
      rw [show recurse (HtmlNode.text s :: rest) G = recurse rest G from by
        simp [recurse], ih G hnd]
      simp only [tagsOf_cons_text, elemsNamed_cons_text]
    | elem n a ch =>
      intro G hnd
      rw [show recurse (HtmlNode.elem n a ch :: rest) G
          = recurse rest (dictAppend G n (toDict (HtmlNode.elem n a ch))) from by
        simp [recurse, toDict]]
      by_cases hmem : n ∈ G.map Prod.fst
      · rw [dictAppend_mem _ hnd hmem]
        have hkeys : (G.map (fun tl => if tl.1 = n then (tl.1, tl.2 ++ [toDict (HtmlNode.elem n a ch)]) else tl)).map Prod.fst
            = G.map Prod.fst := by
          rw [List.map_map]
          apply List.map_congr_left
          intro tl _
          by_cases h : tl.1 = n <;> simp [h, Function.comp]
        rw [ih _ (by rw [hkeys]; exact hnd)]
        rw [hkeys]
        congr 1
        · rw [List.map_map]
          apply List.map_congr_left
          intro tl htl
          by_cases h : tl.1 = n
          · simp only [Function.comp, h, if_pos]
            rw [elemsNamed_cons_elem_eq]
            simp [List.append_assoc]
          · simp only [Function.comp, h, if_neg, if_false]
            rw [elemsNamed_cons_elem_ne _ _ _ h]
        · rw [tagsOf_cons_elem]
          rw [show (n :: tagsOf rest).filter (fun t => decide (t ∉ G.map Prod.fst))
              = (tagsOf rest).filter (fun t => decide (t ∉ G.map Prod.fst)) from by
            simp [List.filter_cons, hmem]]
          apply List.map_congr_left
          intro t ht
          have htn : t ≠ n := by
            intro he
            subst he
            have h3 := List.mem_filter.mp (mem_firstDedup _ _ ht)
            exact (of_decide_eq_true h3.2) hmem
          rw [elemsNamed_cons_elem_ne _ _ _ htn]
      · rw [dictAppend_not_mem _ hmem]
        have hkeys2 : ((G ++ [(n, [toDict (HtmlNode.elem n a ch)])]).map Prod.fst)
            = G.map Prod.fst ++ [n] := by simp
        have hdisj : (G.map Prod.fst).Disjoint [n] := by
          intro x hx hxn
          rw [List.mem_singleton] at hxn
          exact hmem (hxn ▸ hx)
        have hnd2 : (((G ++ [(n, [toDict (HtmlNode.elem n a ch)])]).map Prod.fst)).Nodup := by
          rw [hkeys2]
          exact List.nodup_append.mpr ⟨hnd, List.nodup_singleton n, hdisj⟩
        rw [ih _ hnd2, hkeys2, List.map_append]
        have hGmap : G.map (fun tl => (tl.1, tl.2 ++ (elemsNamed tl.1 rest).map toDict))
            = G.map (fun tl =>
                (tl.1, tl.2 ++ (elemsNamed tl.1 (HtmlNode.elem n a ch :: rest)).map toDict)) := by
          apply List.map_congr_left
          intro tl htl
          have hne : tl.1 ≠ n := fun he => hmem (he ▸ List.mem_map.mpr ⟨tl, htl, rfl⟩)
          rw [elemsNamed_cons_elem_ne _ _ _ hne]
        have hfilterc : (tagsOf (HtmlNode.elem n a ch :: rest)).filter
              (fun t => decide (t ∉ G.map Prod.fst))
            = n :: (tagsOf rest).filter (fun t => decide (t ∉ G.map Prod.fst)) := by
          rw [tagsOf_cons_elem]
          simp [List.filter_cons, hmem]
        have hdd : firstDedup
              (n :: (tagsOf rest).filter (fun t => decide (t ∉ G.map Prod.fst)))
            = n :: firstDedup ((tagsOf rest).filter
                (fun t => decide (t ∉ G.map Prod.fst ++ [n]))) := by
          rw [firstDedup, filter_not_mem_concat]
        have htailmap : (firstDedup ((tagsOf rest).filter
              (fun t => decide (t ∉ G.map Prod.fst ++ [n])))).map
                (fun t => (t, (elemsNamed t (HtmlNode.elem n a ch :: rest)).map toDict))
            = (firstDedup ((tagsOf rest).filter
              (fun t => decide (t ∉ G.map Prod.fst ++ [n])))).map
                (fun t => (t, (elemsNamed t rest).map toDict)) := by
          apply List.map_congr_left
          intro t ht
          have htn : t ≠ n := by
            intro he
            subst he
            have h3 := List.mem_filter.mp (mem_firstDedup _ _ ht)
            have h4 := of_decide_eq_true h3.2
            exact h4 (List.mem_append.mpr (Or.inr (List.mem_singleton.mpr rfl)))
          rw [elemsNamed_cons_elem_ne _ _ _ htn]
        rw [hfilterc, hdd, ← hGmap]
        conv_rhs => rw [List.map_cons]
        rw [htailmap, elemsNamed_cons_elem_eq]
        simp [List.append_assoc]

theorem recurse_nil_eq (nodes : List HtmlNode) :
    recurse nodes []
      = (firstDedup (tagsOf nodes)).map (fun t => (t, (elemsNamed t nodes).map toDict)) := by
  have h := recurse_groups nodes [] (by simp)
  have hf : (tagsOf nodes).filter
        (fun t => decide (t ∉ (([] : List (String × List NDict)).map Prod.fst)))
      = tagsOf nodes := by
    rw [List.filter_eq_self]
    intro t _
    simp
  rw [hf] at h
  simpa using h

theorem recurse_nil_keys (nodes : List HtmlNode) :
    (recurse nodes []).map Prod.fst = firstDedup (tagsOf nodes) := by
  rw [recurse_nil_eq, List.map_map]
  exact (List.map_congr_left (fun t _ => rfl)).trans (List.map_id _)

theorem bodyLoopGs_none : ∀ {gs : List (String × List NDict)},
    "body" ∉ gs.map Prod.fst → bodyLoopGs gs = none := by
  intro gs
  induction gs with
  | nil => intro _; rfl
  | cons g rest ih =>
    intro h
    obtain ⟨t, l⟩ := g
    simp only [List.map_cons, List.mem_cons] at h
    push_neg at h
    simp [bodyLoopGs, Ne.symm h.1, ih h.2]

theorem listLoopT_flatMap : ∀ l : List NDict, listLoopT l = l.flatMap emitD := by
  intro l
  induction l with
  | nil => rfl
  | cons d rest ih => simp [listLoopT, ih]

theorem identsOfListT_no_body (l : List NDict)
    (h : ∀ d ∈ l, bodyLoop d = none) : identsOfListT l = l.flatMap emitD := by
  cases l with
  | nil => rfl
  | cons d rest =>
    have hd := h d (List.mem_cons_self _ _)
    simp [identsOfListT, hd, listLoopT_flatMap]

theorem emitGs_flatMap : ∀ gs : List (String × List NDict),
    emitGs gs = gs.flatMap (fun g => g.1 :: identsOfListT g.2) := by
  intro gs
  induction gs with
  | nil => rfl
  | cons g rest ih =>
    obtain ⟨t, l⟩ := g
    simp [emitGs, ih]

theorem flatMap_congr {α β : Type} {l : List α} {f g : α → List β}
    (h : ∀ a ∈ l, f a = g a) : l.flatMap f = l.flatMap g := by
  induction l with
  | nil => rfl
  | cons x xs ih =>
    simp only [List.flatMap_cons, h x (List.mem_cons_self _ _)]
    rw [ih (fun a ha => h a (List.mem_cons_of_mem _ ha))]

theorem attach_flatMap_eq (l : List HtmlNode) (g : HtmlNode → List String) :
    l.attach.flatMap (fun e => g e.1) = l.flatMap g := by
  have h1 : l.attach.flatMap (fun e => g e.1)
      = (l.attach.map (fun e => (e.1 : HtmlNode))).flatMap g := by
    rw [List.flatMap_map]
  rw [h1, List.attach_map_subtype_val]

theorem forestBodyFree_mem : ∀ {nodes : List HtmlNode} {e : HtmlNode},
    forestBodyFree nodes = true → e ∈ nodes → bodyChildFree e = true := by
  intro nodes
  induction nodes with
  | nil => intro e _ h; simp at h
  | cons hd rest ih =>
    intro e hf hmem
    simp only [forestBodyFree, Bool.and_eq_true] at hf
    rcases List.mem_cons.mp hmem with h | h
    · exact h ▸ hf.1
    · exact ih hf.2 h

theorem bodyLoop_toDict_none {n : String} {a : Attrs} {ch : List HtmlNode}
    (h : bodyChildFree (HtmlNode.elem n a ch) = true) :
    bodyLoop (toDict (HtmlNode.elem n a ch)) = none := by
  simp only [bodyChildFree, Bool.and_eq_true] at h
  have hnb : "body" ∉ tagsOf ch := by simpa using h.1
  have hshow : bodyLoop (toDict (HtmlNode.elem n a ch))
      = bodyLoopGs (recurse ch []) := by
    simp [toDict, bodyLoop]
  rw [hshow]
  apply bodyLoopGs_none
  rw [recurse_nil_keys]
  intro hmem
  exact hnb (mem_firstDedup _ _ hmem)

theorem attrTokensOpt_ite (a : Attrs) :
    attrTokensOpt (if attrsPresent a then some a else none) = attrTokens a := by
  by_cases hp : attrsPresent a = true
  · simp [hp, attrTokensOpt]
  · simp only [Bool.not_eq_true] at hp
    simp only [attrsPresent, Bool.or_eq_false_iff] at hp
    have hid : a.idAttr = none := Option.not_isSome_iff_eq_none.mp (by simp [hp.1.1])
    have hcl : a.classes = [] := by
      have h2 := hp.1.2
      have h3 : a.classes.isEmpty = true := by
        cases hie : a.classes.isEmpty
        · rw [hie] at h2; simp at h2
        · rfl
      exact List.isEmpty_iff.mp h3
    simp [attrsPresent, hp.1.1, hp.1.2, hp.2, attrTokensOpt, attrTokens, hid, hcl]

theorem emitGs_recurse_spec : ∀ (fuel : Nat) (nodes : List HtmlNode),
    sizeOf nodes ≤ fuel → forestBodyFree nodes = true →
    emitGs (recurse nodes []) = specEmitForest nodes := by
  intro fuel
  induction fuel with
  | zero =>
    intro nodes hsz _
    exfalso
    have hpos : 0 < sizeOf nodes := by cases nodes <;> simp_arith
    omega
  | succ f ihf =>
    intro nodes hsz hbody
    rw [recurse_nil_eq, emitGs_flatMap, List.flatMap_map]
    rw [show specEmitForest nodes
        = (firstDedup (tagsOf nodes)).flatMap (fun t =>
            t :: (elemsNamed t nodes).attach.flatMap (fun e => specEmitElem e.1)) from by
      rw [specEmitForest]]
    apply flatMap_congr
    intro t _
    have hbodyAll : ∀ d ∈ (elemsNamed t nodes).map toDict, bodyLoop d = none := by
      intro d hd
      obtain ⟨e, he, hde⟩ := List.mem_map.mp hd
      have hen : e ∈ nodes := (List.mem_filter.mp he).1
      have hbf : bodyChildFree e = true := forestBodyFree_mem hbody hen
      cases e with
      | text s =>
        have := (List.mem_filter.mp he).2
        simp [tagName] at this
      | elem n2 a2 ch2 =>
        rw [← hde]
        exact bodyLoop_toDict_none hbf
    simp only []
    rw [identsOfListT_no_body _ hbodyAll, List.flatMap_map, attach_flatMap_eq]
    congr 1
    apply flatMap_congr
    intro e he
    have hen : e ∈ nodes := (List.mem_filter.mp he).1
    have hbf : bodyChildFree e = true := forestBodyFree_mem hbody hen
    cases e with
    | text s =>
      have := (List.mem_filter.mp he).2
      simp [tagName] at this
    | elem n2 a2 ch2 =>
      have hsz2 : sizeOf ch2 ≤ f := by
        have h1 : sizeOf (HtmlNode.elem n2 a2 ch2) < sizeOf nodes :=
          List.sizeOf_lt_of_mem hen
        have h2 : sizeOf ch2 < sizeOf (HtmlNode.elem n2 a2 ch2) := by
          simp only [HtmlNode.elem.sizeOf_spec]
          omega
        omega
      have hbf2 : forestBodyFree ch2 = true := by
        simp only [bodyChildFree, Bool.and_eq_true] at hbf
        exact hbf.2
      have hrec := ihf ch2 hsz2 hbf2
      show emitD (toDict (HtmlNode.elem n2 a2 ch2)) = specEmitElem (HtmlNode.elem n2 a2 ch2)
      rw [show emitD (toDict (HtmlNode.elem n2 a2 ch2))
          = attrTokensOpt (if attrsPresent a2 then some a2 else none)
            ++ emitGs (recurse ch2 []) from by simp [toDict, emitD]]
      rw [attrTokensOpt_ite, hrec]
      rw [show specEmitElem (HtmlNode.elem n2 a2 ch2)
          = attrTokens a2 ++ specEmitForest ch2 from by rw [specEmitElem]]

/-- C2 (amended): the flattener does not emit id/class tokens before the tag
name.  Instead, over the dictionary `recurse` builds, it emits for each
distinct child tag in order of first occurrence the tag name once, then for
each same-named sibling in document order its `#id` token, its `.class`
tokens, and recursively its children's identifiers under the same grouped
discipline.  Hypotheses: no element has a child named `body` (otherwise the
`"body" in html_dict[0]` redirection rewrites the traversal) and no element
is named `attributes` (on such input the Python collides with the attribute
entry of its collector dictionary, which the model keeps separate). -/
theorem C2_flatten_amended (nodes : List HtmlNode)
    (hbody : forestBodyFree nodes = true)
    (_hattr : forestNoTag "attributes" nodes = true) :
    emitGs (recurse nodes []) = specEmitForest nodes :=
  emitGs_recurse_spec (sizeOf nodes) nodes le_rfl hbody

/-- C2 witness at a tree with an id, classes, and interleaved same-tag
siblings. -/
theorem C2_witness :
    emitGs (recurse
      [HtmlNode.elem "div" ⟨some "x", ["c1", "c2"], false⟩
        [HtmlNode.elem "p" ⟨some "a", [], false⟩ [],
         HtmlNode.elem "span" ⟨none, [], false⟩ [],
         HtmlNode.elem "p" ⟨some "b", [], false⟩ []]] [])
      = specEmitForest
      [HtmlNode.elem "div" ⟨some "x", ["c1", "c2"], false⟩
        [HtmlNode.elem "p" ⟨some "a", [], false⟩ [],
         HtmlNode.elem "span" ⟨none, [], false⟩ [],
         HtmlNode.elem "p" ⟨some "b", [], false⟩ []]] :=
  C2_flatten_amended _ (by decide) (by decide)

/-! ## C9: the fallible collector vs. the total model -/

theorem groupsToF_keys : ∀ D : List (String × List NDict),
    (groupsToF D).map Prod.fst = D.map Prod.fst := by
  intro D
  induction D with
  | nil => rfl
  | cons g gs ih =>
    obtain ⟨t, l⟩ := g
    simp [groupsToF, ih]

theorem listToF_append : ∀ a b : List NDict,
    listToF (a ++ b) = listToF a ++ listToF b := by
  intro a b
  induction a with
  | nil => rfl
  | cons d rest ih => simp [listToF, ih]

theorem groupsToF_append : ∀ a b : List (String × List NDict),
    groupsToF (a ++ b) = groupsToF a ++ groupsToF b := by
  intro a b
  induction a with
  | nil => rfl
  | cons g gs ih =>
    obtain ⟨t, l⟩ := g
    simp [groupsToF, ih]

theorem fdictPlus_skip : ∀ (X Y : List (String × FVal)) (k : String)
    (c : List (String × FVal)), k ∉ X.map Prod.fst →
    fdictPlus (X ++ Y) k c = (fdictPlus Y k c).map (fun d => X ++ d) := by
  intro X
  induction X with
  | nil =>
    intro Y k c _
    simp only [List.nil_append]
    cases h : fdictPlus Y k c <;> simp [h]
  | cons kv rest ih =>
    intro Y k c hk
    obtain ⟨k2, v⟩ := kv
    simp only [List.map_cons, List.mem_cons] at hk
    push_neg at hk
    simp only [List.cons_append, fdictPlus, if_neg (Ne.symm hk.1), List.append_eq]
    rw [ih Y k c hk.2]
    cases h : fdictPlus Y k c <;> simp [h]

theorem fdictPlus_groupsToF_mem : ∀ (D : List (String × List NDict)) (k : String)
    (c : NDict), k ∈ D.map Prod.fst →
    fdictPlus (groupsToF D) k (ndToF c) = some (groupsToF (dictAppend D k c)) := by
  intro D
  induction D with
  | nil => intro k c h; simp at h
  | cons g gs ih =>
    intro k c h
    obtain ⟨t, l⟩ := g
    by_cases hk : t = k
    · subst hk
      simp [groupsToF, fdictPlus, dictAppend, listToF_append, listToF]
    · have hmem : k ∈ gs.map Prod.fst := by
        rcases List.mem_cons.mp h with h2 | h2
        · exact absurd h2.symm hk
        · exact h2
      simp only [groupsToF, fdictPlus, if_neg hk, dictAppend]
      rw [ih k c hmem]
      simp [groupsToF]

theorem dictAppend_keys : ∀ (D : List (String × List NDict)) (k : String) (c : NDict),
    (dictAppend D k c).map Prod.fst
      = if k ∈ D.map Prod.fst then D.map Prod.fst else D.map Prod.fst ++ [k] := by
  intro D
  induction D with
  | nil => intro k c; simp [dictAppend]
  | cons g gs ih =>
    intro k c
    obtain ⟨t, l⟩ := g
    by_cases ht : t = k
    · simp [dictAppend, ht]
    · simp only [dictAppend, ht, if_false, List.map_cons, ih]
      by_cases hmem : k ∈ gs.map Prod.fst
      · simp [hmem, ht, Ne.symm ht]
      · simp [hmem, ht, Ne.symm ht]

theorem optAttrsF_ite (a : Attrs) :
    optAttrsF (if attrsPresent a then some a else none)
      = if attrsPresent a then [("attributes", FVal.attrsV a)] else [] := by
  by_cases h : attrsPresent a = true <;> simp [h, optAttrsF]

theorem recurseF_eq_recurse_aux : ∀ (fuel : Nat) (nodes : List HtmlNode),
    sizeOf nodes ≤ fuel →
    ∀ (pre : List (String × FVal)) (D : List (String × List NDict)),
    forestNoTag "attributes" nodes = true →
    (∀ k ∈ pre.map Prod.fst, k = "attributes") →
    "attributes" ∉ D.map Prod.fst →
    recurseF nodes (pre ++ groupsToF D) = some (pre ++ groupsToF (recurse nodes D)) := by
  intro fuel
  induction fuel with
  | zero =>
    intro nodes hsz
    exfalso
    have hpos : 0 < sizeOf nodes := by cases nodes <;> simp_arith
    omega
  | succ f ihf =>
    intro nodes hsz pre D hnt hpre hD
    cases nodes with
    | nil =>
      rw [show recurse [] D = D from by simp [recurse]]
      simp [recurseF]
    | cons e rest =>
      cases e with
      | text s =>
        simp only [List.cons.sizeOf_spec] at hsz
        have hnt2 : forestNoTag "attributes" rest = true := by
          simp only [forestNoTag, noTagNode, Bool.and_eq_true] at hnt
          exact hnt.2
        rw [show recurseF (HtmlNode.text s :: rest) (pre ++ groupsToF D)
            = recurseF rest (pre ++ groupsToF D) from by simp [recurseF]]
        rw [show recurse (HtmlNode.text s :: rest) D = recurse rest D from by
          simp [recurse]]
        exact ihf rest (by omega) pre D hnt2 hpre hD
      | elem name a children =>
        simp only [List.cons.sizeOf_spec, HtmlNode.elem.sizeOf_spec] at hsz
        have hnts := hnt
        simp only [forestNoTag, noTagNode, Bool.and_eq_true] at hnts
        have hname : name ≠ "attributes" := by
          have h1 := hnts.1.1
          simpa using h1
        have hch : forestNoTag "attributes" children = true := hnts.1.2
        have hrest : forestNoTag "attributes" rest = true := hnts.2
        have hpre2 : ∀ k ∈ ((if attrsPresent a then [("attributes", FVal.attrsV a)]
            else []) : List (String × FVal)).map Prod.fst, k = "attributes" := by
          by_cases hp : attrsPresent a = true <;> simp [hp]
        have hchild := ihf children (by omega)
          (if attrsPresent a then [("attributes", FVal.attrsV a)] else []) []
          hch hpre2 (by simp)
        rw [show ((if attrsPresent a then [("attributes", FVal.attrsV a)] else [])
              ++ groupsToF [])
            = (if attrsPresent a then [("attributes", FVal.attrsV a)] else [])
            from by simp [groupsToF]] at hchild
        have hchEq : (if attrsPresent a then [("attributes", FVal.attrsV a)] else [])
              ++ groupsToF (recurse children [])
            = ndToF (toDict (HtmlNode.elem name a children)) := by
          simp only [toDict, ndToF, optAttrsF_ite]
        have hnp : name ∉ pre.map Prod.fst := fun hmem => hname (hpre name hmem)
        have hkeysPG : (pre ++ groupsToF D).map Prod.fst
            = pre.map Prod.fst ++ D.map Prod.fst := by
          simp [groupsToF_keys]
        have hplus : fdictPlus (fdictInit (pre ++ groupsToF D) name) name
              (ndToF (toDict (HtmlNode.elem name a children)))
            = some (pre ++ groupsToF
                (dictAppend D name (toDict (HtmlNode.elem name a children)))) := by
          by_cases hmem : name ∈ D.map Prod.fst
          · have hinit : fdictInit (pre ++ groupsToF D) name = pre ++ groupsToF D := by
              simp only [fdictInit]
              rw [if_pos]
              rw [hkeysPG]
              exact List.mem_append.mpr (Or.inr hmem)
            rw [hinit, fdictPlus_skip _ _ _ _ hnp,
              fdictPlus_groupsToF_mem D name _ hmem]
            simp
          · have hninit : name ∉ (pre ++ groupsToF D).map Prod.fst := by
              rw [hkeysPG]
              intro hin
              rcases List.mem_append.mp hin with h2 | h2
              · exact hnp h2
              · exact hmem h2
            have hinit : fdictInit (pre ++ groupsToF D) name
                = (pre ++ groupsToF D) ++ [(name, FVal.groupV [])] := by
              simp only [fdictInit]
              rw [if_neg hninit]
            rw [hinit, fdictPlus_skip _ _ _ _ hninit]
            rw [show fdictPlus [(name, FVal.groupV [])] name
                  (ndToF (toDict (HtmlNode.elem name a children)))
                = some [(name,
                    FVal.groupV [ndToF (toDict (HtmlNode.elem name a children))])]
              from by simp [fdictPlus]]
            rw [dictAppend_not_mem _ hmem, groupsToF_append]
            simp [groupsToF, listToF, List.append_assoc]
        have hD2 : "attributes" ∉ (dictAppend D name
            (toDict (HtmlNode.elem name a children))).map Prod.fst := by
          rw [dictAppend_keys]
          by_cases hmem2 : name ∈ D.map Prod.fst
          · simpa [hmem2] using hD
          · simp only [hmem2, if_false]
            intro hin
            rcases List.mem_append.mp hin with h2 | h2
            · exact hD h2
            · exact hname (List.mem_singleton.mp h2).symm
        rw [show recurse (HtmlNode.elem name a children :: rest) D
            = recurse rest (dictAppend D name (toDict (HtmlNode.elem name a children)))
            from by simp [recurse, toDict]]
        rw [show recurseF (HtmlNode.elem name a children :: rest) (pre ++ groupsToF D)
            = (match recurseF children (if attrsPresent a
                  then [("attributes", FVal.attrsV a)] else []) with
               | none => none
               | some child =>
                 match fdictPlus (fdictInit (pre ++ groupsToF D) name) name child with
                 | none => none
                 | some collector2 => recurseF rest collector2)
            from by simp [recurseF]]
        rw [hchild, hchEq]
        show (match fdictPlus (fdictInit (pre ++ groupsToF D) name) name
              (ndToF (toDict (HtmlNode.elem name a children))) with
          | none => none
          | some collector2 => recurseF rest collector2)
          = some (pre ++ groupsToF (recurse rest
              (dictAppend D name (toDict (HtmlNode.elem name a children)))))
        rw [hplus]
        show recurseF rest (pre ++ groupsToF
              (dictAppend D name (toDict (HtmlNode.elem name a children))))
            = some (pre ++ groupsToF (recurse rest
              (dictAppend D name (toDict (HtmlNode.elem name a children)))))
        exact ihf rest (by omega) pre _ hrest hpre hD2

theorem recurseF_eq_recurse (nodes : List HtmlNode)
    (hnt : forestNoTag "attributes" nodes = true) :
    recurseF nodes [] = some (groupsToF (recurse nodes [])) := by
  have h := recurseF_eq_recurse_aux (sizeOf nodes) nodes le_rfl [] [] hnt
    (by simp) (by simp)
  simpa [groupsToF] using h

/-- C9 counterexample: on the valid parsed tree `<div id="x"><attributes/></div>`
the faithful collector model fails — Python's `recurse` skips the membership
check because the parent's collector already holds the `"attributes"` key for
the attrs dict, then `collector_dict["attributes"] += (child_dict,)` applies
`+=` to a dict and raises `TypeError` — so flattening is not total over the
documented domain of valid parsed HTML trees. -/
theorem C9_counterexample :
    recurseF [HtmlNode.elem "div" ⟨some "x", [], false⟩
        [HtmlNode.elem "attributes" ⟨none, [], false⟩ []]] [] = none := by
  simp [recurseF, fdictInit, fdictPlus, attrsPresent]

/-- C9 (amended): totality holds over the documented domain restricted to
trees with no element named `attributes`: there the faithful fallible
collector succeeds and agrees with the total model (first conjunct), whose
tag-group lists are always non-empty so the `html_dict[0]` subscripts are in
bounds (second conjunct).  The HTML-order sort returns a result whenever
every model key has a leading simple token, which is true of every selector
an upstream CSS parser emits (third conjunct).  Parsing, the lexicographic
sort and the serializer are total functions of their inputs by
construction. -/
theorem C9_totality_amended :
    (∀ nodes : List HtmlNode, forestNoTag "attributes" nodes = true →
        recurseF nodes [] = some (groupsToF (recurse nodes [])))
    ∧ (∀ nodes : List HtmlNode, wfGroups (recurse nodes []) = true)
    ∧ (∀ (m : List (String × CssRule)) (order : List String),
        (∀ kv ∈ m, (leadingToken kv.1).isSome = true) →
        (sort_css_by_html m order).isSome = true) := by
  refine ⟨fun nodes hnt => recurseF_eq_recurse nodes hnt, ?_, ?_⟩
  · intro nodes
    exact wfGroups_recurse nodes [] rfl
  · intro m order hgood
    exact sortHtmlGo_isSome m order [] hgood

/-- C9 witness: the collector agreement at a concrete `attributes`-free tree
and the sort totality at a concrete model. -/
theorem C9_witness :
    recurseF [HtmlNode.elem "div" ⟨some "x", [], false⟩
        [HtmlNode.elem "p" ⟨none, [], false⟩ []]] []
      = some (groupsToF (recurse [HtmlNode.elem "div" ⟨some "x", [], false⟩
          [HtmlNode.elem "p" ⟨none, [], false⟩ []]] []))
    ∧ (sort_css_by_html [("a b", ⟨"", []⟩)] ["a"]).isSome = true :=
  ⟨C9_totality_amended.1 _ (by decide), C9_totality_amended.2.2 _ _ (by decide)⟩
